import Mathlib

/-!
# complete-lorawan-network-example.cc

A shallow embedding of the scenario driver `examples/complete-lorawan-network-example.cc`
and theorems about it.

Conventions.
* C++ `int` is a mathematical integer reduced to 32 bits by `wrapInt32` after
  every arithmetic operation.
* C++ `double` is IEEE binary64: a finite value is the rational number it
  denotes, and every arithmetic result is rounded to nearest, ties to even
  (`roundNearestEven`, `roundToDouble`).
* Containers (`std::map`, `std::list`, `NodeContainer`) are lists in iteration order.
* Output streams are the list of records written so far; `std::cout` shows a
  `double` rounded to six significant decimal digits (`printDouble`).
-/

namespace Lorawan

/-! ## 32-bit `int` arithmetic -/

/-- Two's-complement reduction of an integer to the range of a 32-bit `int`. -/
def wrapInt32 (x : Int) : Int := (x + 2 ^ 31) % 2 ^ 32 - 2 ^ 31

/-- An integer is the value of some 32-bit `int`. -/
def inInt32 (x : Int) : Prop := -2 ^ 31 ≤ x ∧ x < 2 ^ 31

instance (x : Int) : Decidable (inInt32 x) := by
  unfold inInt32; infer_instance

/-- The `int` operator `+`. -/
def iadd (a b : Int) : Int := wrapInt32 (a + b)

/-- The `int` operator `-`. -/
def isub (a b : Int) : Int := wrapInt32 (a - b)

/-- The `int` operator `*`. -/
def imul (a b : Int) : Int := wrapInt32 (a * b)

/-- The expression `3 * gatewayRings * gatewayRings - 3 * gatewayRings + 1`
(the initialiser of `nGateways` and the assignment under "Compute the number of
gateways"), parsed as `((3 * r) * r - 3 * r) + 1`. -/
def computeNGateways (gatewayRings : Int) : Int :=
  iadd (isub (imul (imul 3 gatewayRings) gatewayRings) (imul 3 gatewayRings)) 1

/-- No intermediate value of `3 * r * r - 3 * r + 1` leaves the range of `int`. -/
def nGatewaysNoOverflow (r : Int) : Prop :=
  inInt32 (3 * r) ∧ inInt32 (3 * r * r) ∧ inInt32 (3 * r * r - 3 * r) ∧
    inInt32 (3 * r * r - 3 * r + 1)

instance (r : Int) : Decidable (nGatewaysNoOverflow r) := by
  unfold nGatewaysNoOverflow; infer_instance

/-- The expression `(gatewayRings - 1) * 2 + 1`, the divisor of `radius` in the
definition of `gatewayRadius`. -/
def gatewayRadiusDivisor (gatewayRings : Int) : Int :=
  iadd (imul (isub gatewayRings 1) 2) 1

/-- No intermediate value of `(r - 1) * 2 + 1` leaves the range of `int`. -/
def divisorNoOverflow (r : Int) : Prop :=
  inInt32 (r - 1) ∧ inInt32 ((r - 1) * 2) ∧ inInt32 ((r - 1) * 2 + 1)

instance (r : Int) : Decidable (divisorNoOverflow r) := by
  unfold divisorNoOverflow; infer_instance

/-! ## IEEE binary64 `double` arithmetic -/

/-- Rounding of a rational to an integer: to nearest, ties to the even integer. -/
def roundHalfEven (t : ℚ) : ℤ :=
  if t - ⌊t⌋ < 1 / 2 then ⌊t⌋
  else if 1 / 2 < t - ⌊t⌋ then ⌊t⌋ + 1
  else if ⌊t⌋ % 2 = 0 then ⌊t⌋ else ⌊t⌋ + 1

/-- Exponent of the unit in the last place of the binary64 binade of `q`:
53 significant bits, smallest normal exponent -1022 (below it the subnormal
spacing `2 ^ (-1074)`). -/
def ulpExponent (q : ℚ) : ℤ := max (Int.log 2 |q|) (-1022) - 52

/-- Round-to-nearest, ties-to-even, to 53 significant bits (exponent unbounded above). -/
def roundNearestEven (q : ℚ) : ℚ :=
  (roundHalfEven (q / 2 ^ ulpExponent q) : ℚ) * 2 ^ ulpExponent q

/-- The largest finite binary64 value, `(2 ^ 53 - 1) * 2 ^ 971`. -/
def maxFinite : ℚ := (2 ^ 53 - 1) * 2 ^ 971

/-- The rational `q` is the value of a finite binary64 number. -/
def isDouble (q : ℚ) : Prop :=
  ∃ m e : ℤ, |m| < 2 ^ 53 ∧ -1074 ≤ e ∧ e ≤ 971 ∧ q = m * 2 ^ e

/-- A value of the C++ type `double`. A finite value is the rational it denotes
(the two zeros are not distinguished). -/
inductive Double where
  | finite (q : ℚ)
  | inf (negative : Bool)
  | nan
  deriving DecidableEq

/-- The binary64 result of an operation whose exact result is `q`. -/
def roundToDouble (q : ℚ) : Double :=
  if maxFinite < |roundNearestEven q| then Double.inf (decide (q < 0))
  else Double.finite (roundNearestEven q)

/-- Conversion of an `int` to `double`. -/
def Double.ofInt (n : Int) : Double := roundToDouble n

/-- Conversion of an unsigned size to `double`. -/
def Double.ofNat (n : Nat) : Double := roundToDouble n

/-- A decimal floating literal of the source. -/
def Double.lit (q : ℚ) : Double := roundToDouble q

/-- The `double` operator `+`. -/
def Double.add : Double → Double → Double
  | .finite a, .finite b => roundToDouble (a + b)
  | .finite _, .inf t => .inf t
  | .inf s, .finite _ => .inf s
  | .inf s, .inf t => if s = t then .inf s else .nan
  | .nan, _ => .nan
  | _, .nan => .nan

/-- The `double` operator `*`. -/
def Double.mul : Double → Double → Double
  | .finite a, .finite b => roundToDouble (a * b)
  | .finite a, .inf t => if a = 0 then .nan else .inf (xor (decide (a < 0)) t)
  | .inf s, .finite b => if b = 0 then .nan else .inf (xor s (decide (b < 0)))
  | .inf s, .inf t => .inf (xor s t)
  | .nan, _ => .nan
  | _, .nan => .nan

/-- The `double` operator `/`; a zero divisor counts as `+0`. -/
def Double.div : Double → Double → Double
  | .finite a, .finite b =>
      if b = 0 then (if a = 0 then .nan else .inf (decide (a < 0)))
      else roundToDouble (a / b)
  | .finite _, .inf _ => .finite 0
  | .inf s, .finite b => .inf (xor s (decide (b < 0)))
  | .inf _, .inf _ => .nan
  | .nan, _ => .nan
  | _, .nan => .nan

/-- The `double` unary minus. -/
def Double.neg : Double → Double
  | .finite a => .finite (-a)
  | .inf s => .inf (!s)
  | .nan => .nan

/-- The `double` operator `-`. -/
def Double.sub (a b : Double) : Double := Double.add a (Double.neg b)

/-- The `double` comparison `>=`. -/
def Double.ge : Double → Double → Bool
  | .finite a, .finite b => decide (b ≤ a)
  | .finite _, .inf t => t
  | .inf s, .finite _ => !s
  | .inf s, .inf t => !s || t
  | .nan, _ => false
  | _, .nan => false

/-- Rounding of a rational to `digits` significant decimal digits, to nearest,
ties to even. -/
def roundDecimal (digits : Nat) (q : ℚ) : ℚ :=
  (roundHalfEven (q / 10 ^ (Int.log 10 |q| - ((digits : ℤ) - 1))) : ℚ)
    * 10 ^ (Int.log 10 |q| - ((digits : ℤ) - 1))

/-- What an output stream shows for a `double`: the decimal number its text
denotes, or the text of an infinity (`inf`, `-inf`) or of a NaN. -/
inductive Printed where
  | number (q : ℚ)
  | inf (negative : Bool)
  | nan
  deriving DecidableEq

/-- The operator `<<` of an output stream on a `double`, with the stream in its
initial state: general format, precision 6, so the value is shown rounded to
six significant decimal digits. -/
def printDouble : Double → Printed
  | .finite q => .number (roundDecimal 6 q)
  | .inf s => .inf s
  | .nan => .nan

/-! ## Global settings and the command line -/

/-- The global variables of the script ("Network settings", "Output control"). -/
structure Globals where
  nDevices : Int
  gatewayRings : Int
  nGateways : Int
  radius : Double
  simulationTime : Double
  appPeriodSeconds : Int
  sfQuantity : List Int
  printEDs : Bool
  buildingsEnabled : Bool

/-- The globals as their initialisers leave them, in declaration order:
`nGateways` is initialised from the initial `gatewayRings`. -/
def initialGlobals : Globals :=
  let nDevices : Int := 2000
  let gatewayRings : Int := 4
  let nGateways : Int := computeNGateways gatewayRings
  { nDevices := nDevices
    gatewayRings := gatewayRings
    nGateways := nGateways
    radius := Double.ofInt 15000
    simulationTime := Double.ofInt 600
    appPeriodSeconds := 600
    sfQuantity := List.replicate 6 0
    printEDs := true
    buildingsEnabled := true }

/-- The values given on the command line, one optional value for each name
registered with `cmd.AddValue`. -/
structure CommandLineValues where
  nDevices : Option Int
  gatewayRings : Option Int
  radius : Option Double
  simulationTime : Option Double
  appPeriod : Option Int
  printEDs : Option Bool

/-- A command line without options. -/
def noOptions : CommandLineValues :=
  { nDevices := none, gatewayRings := none, radius := none, simulationTime := none,
    appPeriod := none, printEDs := none }

/-- The effect of `cmd.Parse (argc, argv)`: every value given overwrites the
variable bound to its name; no other global changes. -/
def cmdParse (g : Globals) (v : CommandLineValues) : Globals :=
  { g with
    nDevices := v.nDevices.getD g.nDevices
    gatewayRings := v.gatewayRings.getD g.gatewayRings
    radius := v.radius.getD g.radius
    simulationTime := v.simulationTime.getD g.simulationTime
    appPeriodSeconds := v.appPeriod.getD g.appPeriodSeconds
    printEDs := v.printEDs.getD g.printEDs }

/-- The state of `main` after the statement "Compute the number of gateways". -/
structure Setup where
  globals : Globals
  gatewayRadius : Double

/-- The beginning of `main`: the command line is parsed, `gatewayRadius` is
computed as `radius / ((gatewayRings - 1) * 2 + 1)` and `nGateways` is assigned
`3 * gatewayRings * gatewayRings - 3 * gatewayRings + 1`. -/
def mainSetup (v : CommandLineValues) : Setup :=
  let g := cmdParse initialGlobals v
  let gatewayRadius := Double.div g.radius (Double.ofInt (gatewayRadiusDivisor g.gatewayRings))
  let g := { g with nGateways := computeNGateways g.gatewayRings }
  { globals := g, gatewayRadius := gatewayRadius }

/-- The number of nodes made by `gateways.Create (nGateways)`, whose parameter
is a `uint32_t`. -/
def gatewaysCreated (s : Setup) : Nat := (s.globals.nGateways % 2 ^ 32).toNat

/-! ## Creation of the channel -/

/-- The propagation loss models the script instantiates. -/
inductive LossKind where
  | logDistance (exponent referenceDistance referenceLoss : Double)
  | correlatedShadowing
  | buildingPenetration
  deriving DecidableEq

/-- A propagation loss object: its model and its `next` pointer. -/
structure LossModel where
  kind : LossKind
  next : Option Nat
  deriving DecidableEq

/-- The propagation loss objects created so far; a `Ptr` is an index. -/
abbrev Store := List LossModel

/-- The call `CreateObject<T> ()`: a new object with no successor. -/
def createObject (s : Store) (k : LossKind) : Store × Nat :=
  (s ++ [{ kind := k, next := none }], s.length)

/-- The call `p->SetNext (q)`. -/
def setNext (s : Store) (p q : Nat) : Store :=
  s.modify (fun o => { o with next := some q }) p

/-- The call `p->SetPathLossExponent (x)`. -/
def setPathLossExponent (s : Store) (p : Nat) (x : Double) : Store :=
  s.modify (fun o =>
    match o.kind with
    | .logDistance _ d l => { o with kind := .logDistance x d l }
    | _ => o) p

/-- The call `p->SetReference (d, l)`. -/
def setReference (s : Store) (p : Nat) (d l : Double) : Store :=
  s.modify (fun o =>
    match o.kind with
    | .logDistance x _ _ => { o with kind := .logDistance x d l }
    | _ => o) p

/-- The section "Create the channel" of `main`: the store of loss objects and
the pointer `loss` handed to the `LoraChannel`. The arguments `e0 d0 l0` are the
attribute values of a freshly created log-distance model. -/
def mainChannel (buildingsEnabled : Bool) (e0 d0 l0 : Double) : Store × Nat :=
  let (s, loss) := createObject [] (.logDistance e0 d0 l0)
  let s := setPathLossExponent s loss (Double.lit 3.76)
  let s := setReference s loss (Double.ofInt 1) (Double.lit 7.7)
  let s :=
    if buildingsEnabled then
      let (s, shadowing) := createObject s .correlatedShadowing
      let s := setNext s loss shadowing
      let (s, buildingLoss) := createObject s .buildingPenetration
      let s := setNext s shadowing buildingLoss
      s
    else s
  (s, loss)

/-- The models reached from `p` through the `next` pointers, in order. -/
def chainFrom (s : Store) : Nat → Option Nat → List LossKind
  | 0, _ => []
  | _ + 1, none => []
  | fuel + 1, some p =>
    match s.get? p with
    | none => []
    | some o => o.kind :: chainFrom s fuel o.next

/-- The propagation chain of a channel created on `loss`. -/
def propagationChain (c : Store × Nat) : List LossKind :=
  chainFrom c.1 c.1.length (some c.2)

/-- Modelled from the spec: the evaluation of a chain of loss contributors,
which belongs to the propagation framework and is missing from the sources.
"Each contributor receives the cumulative loss so far and the two positions,
and returns an incremented loss"; `contribute k` is the contributor of model
`k`. -/
def computeLoss {L P : Type} (contribute : LossKind → L → P → P → L) (s : Store) :
    Nat → Option Nat → L → P → P → L
  | 0, _, acc, _, _ => acc
  | _ + 1, none, acc, _, _ => acc
  | fuel + 1, some p, acc, tx, rx =>
    match s.get? p with
    | none => acc
    | some o => computeLoss contribute s fuel o.next (contribute o.kind acc tx rx) tx rx

/-- The loss of a channel created on `loss` for a transmitter and a receiver. -/
def channelLoss {L P : Type} (contribute : LossKind → L → P → P → L) (c : Store × Nat)
    (init : L) (tx rx : P) : L :=
  computeLoss contribute c.1 c.1.length (some c.2) init tx rx

/-- Modelled from the spec: the log-distance model belongs to the propagation
framework and is missing from the sources. "Distance-based loss uses a
log-distance path-loss exponent and a reference loss at a reference distance":
the loss at a distance is `referenceLoss + 10 * exponent * log10 (distance /
referenceDistance)`, evaluated in `double` arithmetic; `log10` is the function
of the C library, whose rounding the language does not fix. -/
def logDistanceLoss (log10 : Double → Double)
    (exponent referenceDistance referenceLoss distance : Double) : Double :=
  Double.add referenceLoss
    (Double.mul (Double.mul (Double.ofInt 10) exponent)
      (log10 (Double.div distance referenceDistance)))

/-- Modelled from the spec: the same log-distance loss, missing from the
sources, in exact arithmetic over a field with a logarithm to base 10. -/
def logDistanceLossExact {α : Type} [Field α] (log10 : α → α)
    (exponent referenceDistance referenceLoss distance : α) : α :=
  referenceLoss + 10 * exponent * log10 (distance / referenceDistance)

/-- An implementation of `log10` on `double` that returns the integer part of
the logarithm (an example of a monotone implementation). -/
def floorLog10 : Double → Double
  | .finite q =>
    if q < 0 then .nan else if q = 0 then .inf true else .finite (Int.log 10 q)
  | .inf s => if s then .nan else .inf false
  | .nan => .nan

/-! ## The network status read after the simulation

Only the members the script reads are modelled. `Pkt` is the type of the packet
handle stored with each received-packet record. -/

/-- An address of a gateway. -/
abbrev Address := Nat

/-- An address of an end device. -/
abbrev LoraDeviceAddress := Nat

/-- The record `EndDeviceStatus::PacketInfoPerGw`. -/
structure PacketInfoPerGw where
  gwAddress : Address
  rxPower : Double
  deriving DecidableEq

/-- The container `EndDeviceStatus::GatewayList`, in iteration order. -/
abbrev GatewayList := List (Address × PacketInfoPerGw)

/-- The record `EndDeviceStatus::ReceivedPacketInfo`. -/
structure ReceivedPacketInfo where
  sf : Nat
  gwList : GatewayList
  deriving DecidableEq

/-- The container `EndDeviceStatus::ReceivedPacketList`, in iteration order. -/
abbrev ReceivedPacketList (Pkt : Type) := List (Pkt × ReceivedPacketInfo)

/-- The part of an `EndDeviceStatus` returned by `GetReceivedPacketList ()`. -/
structure EndDeviceStatus (Pkt : Type) where
  receivedPacketList : ReceivedPacketList Pkt

/-- The map `m_endDeviceStatuses`, in iteration order. -/
abbrev EndDeviceStatuses (Pkt : Type) := List (LoraDeviceAddress × EndDeviceStatus Pkt)

/-! ## Output -/

/-- The function `PrintSF`: the lines written to the file, one `(unsigned) info.sf`
for every record of every device. -/
def PrintSF {Pkt : Type} (endDeviceStatuses : EndDeviceStatuses Pkt) : List Nat :=
  endDeviceStatuses.foldl
    (fun SFFile i =>
      let pktList := i.2.receivedPacketList
      pktList.foldl (fun SFFile j => SFFile ++ [j.2.sf]) SFFile)
    []

/-- The variables the export loops of `main` update. -/
structure ExportState (Pkt : Type) where
  received : Double
  PowFile : List (Address × Double)
  NumGwPerPktFile : List (Pkt × Nat)

/-- The innermost loop, over the gateway list of one record: one line
`gwAddress rxPower` for every entry. -/
def exportGatewayList {Pkt : Type} (gatewayList : GatewayList) (st : ExportState Pkt) :
    ExportState Pkt :=
  gatewayList.foldl
    (fun st k =>
      let infoPerGw := k.2
      { st with PowFile := st.PowFile ++ [(infoPerGw.gwAddress, infoPerGw.rxPower)] })
    st

/-- The loop over the received-packet list of one device: one line
`pkt gatewayList.size ()`, then the gateway lines. -/
def exportPacketList {Pkt : Type} (pktList : ReceivedPacketList Pkt) (st : ExportState Pkt) :
    ExportState Pkt :=
  pktList.foldl
    (fun st j =>
      let info := j.2
      let gatewayList := info.gwList
      let pkt := j.1
      let st := { st with NumGwPerPktFile := st.NumGwPerPktFile ++ [(pkt, gatewayList.length)] }
      exportGatewayList gatewayList st)
    st

/-- The loop over the map of device statuses. -/
def exportStatuses {Pkt : Type} (endDeviceStatuses : EndDeviceStatuses Pkt)
    (st : ExportState Pkt) : ExportState Pkt :=
  endDeviceStatuses.foldl
    (fun st i =>
      let pktList := i.2.receivedPacketList
      let st := { st with received := Double.add st.received (Double.ofNat pktList.length) }
      exportPacketList pktList st)
    st

/-- What the end of `main` produces: the three files and the two lines
`std::cout` shows. -/
structure MainOutput (Pkt : Type) where
  printSF : List Nat
  potenze : List (Address × Double)
  gwperpkt : List (Pkt × Nat)
  stdout : List Printed

/-- The end of `main`, from the copy of `status->m_endDeviceStatuses` to `return 0`. -/
def mainExport {Pkt : Type} (endDeviceStatuses : EndDeviceStatuses Pkt) (nDevices : Int) :
    MainOutput Pkt :=
  let printSF := PrintSF endDeviceStatuses
  let st : ExportState Pkt :=
    { received := Double.ofInt 0, PowFile := [], NumGwPerPktFile := [] }
  let st := exportStatuses endDeviceStatuses st
  let receivedProb := Double.div st.received (Double.ofInt nDevices)
  { printSF := printSF
    potenze := st.PowFile
    gwperpkt := st.NumGwPerPktFile
    stdout := [printDouble st.received, printDouble receivedProb] }

/-- The total number of received-packet records of a map of device statuses. -/
def totalReceived {Pkt : Type} (endDeviceStatuses : EndDeviceStatuses Pkt) : Nat :=
  (endDeviceStatuses.map (fun i => i.2.receivedPacketList.length)).sum

/-! ## The order of the calls of `main` -/

/-- The calls of `main` that create, configure or run parts of the scenario. -/
inductive Call where
  | cmdParse
  | logComponentEnable
  | createChannel
  | createEndDevices
  | installEndDeviceMobility
  | installEndDeviceNetDevices
  | createGateways
  | installGatewayMobility
  | installGatewayNetDevices
  | createBuildings
  | installBuildings
  | printBuildings
  | setSpreadingFactorsUp
  | createNetworkServer
  | installNetworkServer
  | installForwarder
  | installApplications
  | startApplications
  | stopApplications
  | printEndDevices
  | simulatorStop
  | simulatorRun
  | simulatorDestroy
  | printSF
  | exportStatuses
  | printReceived
  deriving DecidableEq

/-- The calls of one run of `main`, in program order. `main` has no loop around
any of them and only `PrintEndDevices`, which reads every end device's data
rate, is under a condition. -/
def mainCalls (printEDs : Bool) : List Call :=
  [.cmdParse, .logComponentEnable, .createChannel,
   .createEndDevices, .installEndDeviceMobility, .installEndDeviceNetDevices,
   .createGateways, .installGatewayMobility, .installGatewayNetDevices,
   .createBuildings, .installBuildings, .printBuildings,
   .setSpreadingFactorsUp,
   .createNetworkServer, .installNetworkServer, .installForwarder,
   .installApplications, .startApplications, .stopApplications] ++
  (if printEDs then [.printEndDevices] else []) ++
  [.simulatorStop, .simulatorRun, .simulatorDestroy,
   .printSF, .exportStatuses, .printReceived]

/-! ## Reception and ingestion

The network server that fills the network status is not part of the script.
Its data model and operations are taken from the specification (sections 3,
4.2, 4.3 and 4.4); a packet record is stored in the form the script reads, with
the uplink event as packet handle. -/

/-- Modelled from the spec: the event type of the reception engine, which is
missing from the sources. `UplinkEvent`: "device id, timestamp, spreading factor
used, payload size, transmit power". -/
structure UplinkEvent where
  deviceId : LoraDeviceAddress
  timestamp : Nat
  spreadingFactor : Nat
  payloadSize : Nat
  txPower : Double
  deriving DecidableEq

/-- Modelled from the spec: the record type of the reception engine, which is
missing from the sources. `ReceptionRecord`: "(UplinkEvent reference, Gateway
id, received power, captured: bool)". -/
structure ReceptionRecord where
  event : UplinkEvent
  gateway : Address
  rxPower : Double
  captured : Bool
  deriving DecidableEq

/-- Modelled from the spec: the propagation loss (4.1), the sensitivity table
and the interference rule (4.2), all missing from the sources, as the reception
engine uses them. -/
structure LinkModel where
  lossDb : UplinkEvent → Address → Double
  sensitivity : Nat → Double
  interferenceFree : UplinkEvent → Address → Bool

/-- Modelled from the spec: the link budget evaluator, missing from the
sources. `Evaluate` of 4.2 for one gateway: "rxPower = txPower − lossDb.
captured = rxPower ≥ sensitivity(spreadingFactor) AND no destructive
interference". -/
def evaluate (m : LinkModel) (e : UplinkEvent) (gw : Address) : ReceptionRecord :=
  let rxPower := Double.sub e.txPower (m.lossDb e gw)
  { event := e
    gateway := gw
    rxPower := rxPower
    captured := Double.ge rxPower (m.sensitivity e.spreadingFactor) && m.interferenceFree e gw }

/-- Modelled from the spec: the reception engine, missing from the sources.
`Process` of 4.3 "produces one ReceptionRecord per gateway (captured = true or
false)". -/
def process (m : LinkModel) (e : UplinkEvent) (gateways : List Address) :
    List ReceptionRecord :=
  gateways.map (evaluate m e)

/-- Modelled from the spec: the reception engine, missing from the sources,
"forwards only captured records downstream". -/
def forwarded (rs : List ReceptionRecord) : List ReceptionRecord :=
  rs.filter (fun r => r.captured)

/-- Modelled from the spec: the network status, whose insertion code is missing
from the sources, retains "per-gateway metadata (received power, gateway
identity)"; this is the gateway-list entry of a reception. -/
def toGatewayEntry (r : ReceptionRecord) : Address × PacketInfoPerGw :=
  (r.gateway, { gwAddress := r.gateway, rxPower := r.rxPower })

/-- Modelled from the spec: the insertion into the network status is missing
from the sources. The merge of one reception into the gateway list of an
existing packet record: "union of capturedRecords, no duplicate gateway
entries". -/
def mergeReception (gwList : GatewayList) (r : ReceptionRecord) : GatewayList :=
  if gwList.any (fun k => k.2.gwAddress == r.gateway) then gwList
  else gwList ++ [toGatewayEntry r]

/-- Modelled from the spec: the insertion into the network status is missing
from the sources. `Ingest` of 4.4 on the records of one device "creates (or
updates, if a PacketRecord for an identical event already exists) a single
PacketRecord holding all capturedRecords"; a new record goes to the end
("insertion order = arrival order"). -/
def ingestPacket (e : UplinkEvent) (captured : List ReceptionRecord) :
    ReceivedPacketList UplinkEvent → ReceivedPacketList UplinkEvent
  | [] => [(e, { sf := e.spreadingFactor, gwList := captured.map toGatewayEntry })]
  | (p, info) :: rest =>
    if p = e then (p, { info with gwList := captured.foldl mergeReception info.gwList }) :: rest
    else (p, info) :: ingestPacket e captured rest

/-- Modelled from the spec: the insertion into the network status is missing
from the sources. `Ingest` of 4.4 on the mapping "from device id to its ordered
sequence of PacketRecords", kept in the order of the device ids. -/
def ingestStatuses (e : UplinkEvent) (captured : List ReceptionRecord) :
    EndDeviceStatuses UplinkEvent → EndDeviceStatuses UplinkEvent
  | [] => [(e.deviceId, { receivedPacketList := ingestPacket e captured [] })]
  | (a, st) :: rest =>
    if a = e.deviceId then
      (a, { receivedPacketList := ingestPacket e captured st.receivedPacketList }) :: rest
    else if e.deviceId < a then
      (e.deviceId, { receivedPacketList := ingestPacket e captured [] }) :: (a, st) :: rest
    else (a, st) :: ingestStatuses e captured rest

/-- Modelled from the spec: the lost-packet counters of the network status,
missing from the sources; the counter of a device goes up by one. -/
def countLost (dev : LoraDeviceAddress) : List (LoraDeviceAddress × Nat) →
    List (LoraDeviceAddress × Nat)
  | [] => [(dev, 1)]
  | (a, n) :: rest => if a = dev then (a, n + 1) :: rest else (a, n) :: countLost dev rest

/-- Modelled from the spec: the state of the network server, missing from the
sources. The `NetworkStatus` of the data model with the lost-packet counters of
4.4. -/
structure NetworkStatus where
  endDeviceStatuses : EndDeviceStatuses UplinkEvent
  lost : List (LoraDeviceAddress × Nat)

/-- Modelled from the spec: the insertion into the network status is missing
from the sources. `Ingest(event, capturedRecords)` of 4.4: "If capturedRecords
is empty, increments a lost-packet counter for the device and returns.
Otherwise it creates (or updates ...) a single PacketRecord". -/
def ingest (ns : NetworkStatus) (e : UplinkEvent) (captured : List ReceptionRecord) :
    NetworkStatus :=
  if captured.isEmpty then { ns with lost := countLost e.deviceId ns.lost }
  else { ns with endDeviceStatuses := ingestStatuses e captured ns.endDeviceStatuses }

/-- Modelled from the spec: the run of the network server, missing from the
sources. The network status after the uplink events of a run, each received
over the given gateways under the link conditions of its time (4.3 followed by
4.4), starting from the empty status. -/
def simulate (gateways : List Address) (events : List (LinkModel × UplinkEvent)) :
    NetworkStatus :=
  events.foldl
    (fun ns me => ingest ns me.2 (forwarded (process me.1 me.2 gateways)))
    { endDeviceStatuses := [], lost := [] }

/-- The gateway addresses the export loop of `main` writes for one record. -/
def writtenGatewayAddresses (info : ReceivedPacketInfo) : List Address :=
  ((exportGatewayList info.gwList
      ({ received := Double.ofInt 0, PowFile := [], NumGwPerPktFile := [] } :
        ExportState UplinkEvent)).PowFile).map Prod.fst

/-- Every received-packet record of every device has pairwise distinct gateway
addresses in its gateway list. -/
def distinctGateways {Pkt : Type} (m : EndDeviceStatuses Pkt) : Prop :=
  ∀ i ∈ m, ∀ j ∈ i.2.receivedPacketList, (j.2.gwList.map (fun k => k.2.gwAddress)).Nodup

/-- Link conditions of an example: the loss grows with the gateway address, one
sensitivity for all spreading factors, no interference. -/
def exampleLink : LinkModel :=
  { lossDb := fun _ gw => Double.ofInt (100 + 10 * gw)
    sensitivity := fun _ => Double.ofInt (-110)
    interferenceFree := fun _ _ => true }

/-- An uplink event of an example. -/
def exampleEvent : UplinkEvent :=
  { deviceId := 7, timestamp := 0, spreadingFactor := 7, payloadSize := 23,
    txPower := Double.ofInt 14 }

/-- The record the example event leaves in the network status: captured by
gateways 1 and 2. -/
def exampleRecord : UplinkEvent × ReceivedPacketInfo :=
  (exampleEvent, { sf := 7, gwList :=
    [(1, { gwAddress := 1, rxPower := Double.finite (-96) }),
     (2, { gwAddress := 2, rxPower := Double.finite (-106) })] })

/-- The status of the device of the example event. -/
def exampleStatus : LoraDeviceAddress × EndDeviceStatus UplinkEvent :=
  (7, { receivedPacketList := [exampleRecord] })

/-- A map of one device with 9007205000000001 received-packet records, more
than `2 ^ 53`. -/
def tooManyRecords : EndDeviceStatuses Nat :=
  [(1, { receivedPacketList :=
      List.replicate 9007205000000001 (0, { sf := 7, gwList := [] }) })]

/-! ## Lemmas on 32-bit arithmetic -/

theorem wrapInt32_of_inInt32 {x : Int} (h : inInt32 x) : wrapInt32 x = x := by
  unfold inInt32 at h
  unfold wrapInt32
  omega

theorem wrapInt32_emod_two (x : Int) : wrapInt32 x % 2 = x % 2 := by
  unfold wrapInt32
  omega

theorem computeNGateways_eq {r : Int} (h : nGatewaysNoOverflow r) :
    computeNGateways r = 3 * r * r - 3 * r + 1 := by
  obtain ⟨h1, h2, h3, h4⟩ := h
  unfold computeNGateways iadd isub imul
  rw [wrapInt32_of_inInt32 h1, wrapInt32_of_inInt32 h2, wrapInt32_of_inInt32 h3,
    wrapInt32_of_inInt32 h4]

theorem gatewayRadiusDivisor_eq {r : Int} (h : divisorNoOverflow r) :
    gatewayRadiusDivisor r = 2 * r - 1 := by
  obtain ⟨h1, h2, h3⟩ := h
  unfold gatewayRadiusDivisor iadd isub imul
  rw [wrapInt32_of_inInt32 h1, wrapInt32_of_inInt32 h2, wrapInt32_of_inInt32 h3]
  ring

theorem gatewayRadiusDivisor_odd (r : Int) : gatewayRadiusDivisor r % 2 = 1 := by
  unfold gatewayRadiusDivisor iadd imul
  rw [wrapInt32_emod_two]
  have h := wrapInt32_emod_two (isub r 1 * 2)
  omega

/-- One central gateway and `6 * k` gateways on ring `k`, for the rings `1 .. n`. -/
theorem centered_hexagonal_sum (n : ℕ) :
    (1 : ℤ) + ∑ k in Finset.Icc (1 : ℤ) (n : ℤ), 6 * k
      = 3 * ((n : ℤ) + 1) * ((n : ℤ) + 1) - 3 * ((n : ℤ) + 1) + 1 := by
  induction n with
  | zero => simp
  | succ n ih =>
    have hset : Finset.Icc (1 : ℤ) ((n + 1 : ℕ) : ℤ)
        = insert ((n : ℤ) + 1) (Finset.Icc (1 : ℤ) (n : ℤ)) := by
      ext x
      simp only [Finset.mem_Icc, Finset.mem_insert]
      push_cast
      omega
    rw [hset, Finset.sum_insert (by simp)]
    push_cast
    linarith

/-! ## Lemmas on binary64 rounding -/

theorem roundHalfEven_floor_or (t : ℚ) :
    roundHalfEven t = ⌊t⌋ ∧ t - ⌊t⌋ ≤ 1 / 2 ∨ roundHalfEven t = ⌊t⌋ + 1 ∧ 1 / 2 ≤ t - ⌊t⌋ := by
  unfold roundHalfEven
  split_ifs with h1 h2 h3
  · left; exact ⟨rfl, le_of_lt h1⟩
  · right; exact ⟨rfl, le_of_lt h2⟩
  · left; exact ⟨rfl, not_lt.mp h2⟩
  · right; exact ⟨rfl, not_lt.mp h1⟩

/-- No integer is closer to `t` than `roundHalfEven t`. -/
theorem roundHalfEven_nearest (t : ℚ) (n : ℤ) :
    |(roundHalfEven t : ℚ) - t| ≤ |(n : ℚ) - t| := by
  have hf : (⌊t⌋ : ℚ) ≤ t := Int.floor_le t
  have hl : t < ⌊t⌋ + 1 := Int.lt_floor_add_one t
  have ha := le_abs_self ((n : ℚ) - t)
  have hb := neg_le_abs ((n : ℚ) - t)
  rcases le_or_lt n ⌊t⌋ with hn | hn
  · have hn' : (n : ℚ) ≤ ⌊t⌋ := by exact_mod_cast hn
    rcases roundHalfEven_floor_or t with ⟨h, hh⟩ | ⟨h, hh⟩ <;>
      rw [h, abs_le] <;> push_cast <;> constructor <;> linarith
  · have hn' : (⌊t⌋ : ℚ) + 1 ≤ n := by exact_mod_cast hn
    rcases roundHalfEven_floor_or t with ⟨h, hh⟩ | ⟨h, hh⟩ <;>
      rw [h, abs_le] <;> push_cast <;> constructor <;> linarith

theorem roundHalfEven_eq_of_abs_lt (t : ℚ) (m : ℤ) (h : |t - m| < 1 / 2) :
    roundHalfEven t = m := by
  have h1 := roundHalfEven_nearest t m
  rw [abs_sub_comm] at h
  have h2 : |((roundHalfEven t : ℤ) : ℚ) - m| < 1 := by
    have e : ((roundHalfEven t : ℤ) : ℚ) - m
        = ((roundHalfEven t : ℚ) - t) - ((m : ℚ) - t) := by ring
    rw [e]
    calc |((roundHalfEven t : ℚ) - t) - ((m : ℚ) - t)|
        ≤ |(roundHalfEven t : ℚ) - t| + |(m : ℚ) - t| := abs_sub _ _
      _ < 1 := by linarith
  have h3 : |roundHalfEven t - m| < 1 := by exact_mod_cast h2
  have := abs_lt.mp h3
  omega

theorem two_zpow_pos (e : ℤ) : (0 : ℚ) < 2 ^ e := zpow_pos (by norm_num) e

theorem two_zpow_add (a b : ℤ) : (2 : ℚ) ^ (a + b) = 2 ^ a * 2 ^ b :=
  zpow_add₀ (by norm_num) a b

theorem ulpExponent_ge (q : ℚ) : -1074 ≤ ulpExponent q := by
  unfold ulpExponent
  have := le_max_right (Int.log 2 |q|) (-1022)
  omega

/-- The rounded value is at least as close to `q` as any multiple of the unit
in the last place. -/
theorem roundNearestEven_le_multiple (q : ℚ) (n : ℤ) :
    |roundNearestEven q - q| ≤ |(n : ℚ) * 2 ^ ulpExponent q - q| := by
  unfold roundNearestEven
  set u : ℚ := 2 ^ ulpExponent q with hu
  have hu0 : 0 < u := two_zpow_pos _
  have h := roundHalfEven_nearest (q / u) n
  have e1 : (roundHalfEven (q / u) : ℚ) * u - q
      = ((roundHalfEven (q / u) : ℚ) - q / u) * u := by
    field_simp
  have e2 : (n : ℚ) * u - q = ((n : ℚ) - q / u) * u := by
    field_simp
  rw [e1, e2, abs_mul, abs_mul, abs_of_pos hu0]
  exact mul_le_mul_of_nonneg_right h hu0.le

theorem roundNearestEven_zero : roundNearestEven 0 = 0 := by
  unfold roundNearestEven
  simp [roundHalfEven]

theorem two_zpow_log_le {q : ℚ} (hq : q ≠ 0) :
    (2 : ℚ) ^ Int.log 2 |q| ≤ |q| ∧ |q| < 2 ^ (Int.log 2 |q| + 1) := by
  have h0 : 0 < |q| := abs_pos.mpr hq
  have h1 := Int.zpow_log_le_self (b := 2) (by norm_num) h0
  have h2 := Int.lt_zpow_succ_log_self (b := 2) (by norm_num) |q|
  exact ⟨by exact_mod_cast h1, by exact_mod_cast h2⟩

theorem log_eq_of_bounds {q : ℚ} {E : ℤ} (hlo : (2 : ℚ) ^ E ≤ |q|) (hhi : |q| < 2 ^ (E + 1)) :
    Int.log 2 |q| = E := by
  have h0 : 0 < |q| := lt_of_lt_of_le (two_zpow_pos E) hlo
  have h1 : E ≤ Int.log 2 |q| :=
    (Int.zpow_le_iff_le_log (b := 2) (by norm_num) h0).mp (by exact_mod_cast hlo)
  have h2 : Int.log 2 |q| < E + 1 :=
    (Int.lt_zpow_iff_log_lt (b := 2) (by norm_num) h0).mp (by exact_mod_cast hhi)
  omega

/-- No number with a 53-bit mantissa and an exponent of at least -1074 is closer
to `q` than `roundNearestEven q`. -/
theorem roundNearestEven_nearest_mantissa (q : ℚ) (m k : ℤ) (hm : |m| < 2 ^ 53)
    (hk1 : -1074 ≤ k) : |roundNearestEven q - q| ≤ |(m : ℚ) * 2 ^ k - q| := by
  rcases le_or_lt (ulpExponent q) k with hek | hek
  · -- `d` is a multiple of the unit in the last place
    have h := roundNearestEven_le_multiple q (m * 2 ^ (k - ulpExponent q).toNat)
    have e : ((m * 2 ^ (k - ulpExponent q).toNat : ℤ) : ℚ) * 2 ^ ulpExponent q
        = m * 2 ^ k := by
      push_cast
      rw [mul_assoc, ← zpow_natCast, ← two_zpow_add]
      congr 2
      rw [Int.toNat_of_nonneg (by omega)]
      ring
    rwa [e] at h
  · -- `d` is smaller in magnitude than the power of two below `q`
    by_cases hq : q = 0
    · subst hq; rw [roundNearestEven_zero]; simp
    obtain ⟨hlo, hhi⟩ := two_zpow_log_le hq
    have hE : ulpExponent q = Int.log 2 |q| - 52 := by
      unfold ulpExponent at hek ⊢
      rcases max_cases (Int.log 2 |q|) (-1022) with ⟨h, _⟩ | ⟨h, _⟩
      · rw [h]
      · rw [h] at hek; omega
    have hd : |(m : ℚ) * 2 ^ k| < 2 ^ Int.log 2 |q| := by
      rw [abs_mul, abs_of_pos (two_zpow_pos k)]
      have hm' : |(m : ℚ)| < 2 ^ 53 := by exact_mod_cast hm
      have hk : (2 : ℚ) ^ k ≤ 2 ^ (Int.log 2 |q| - 53) :=
        zpow_le_zpow_right₀ (by norm_num) (by omega)
      have e : (2 : ℚ) ^ Int.log 2 |q| = 2 ^ 53 * 2 ^ (Int.log 2 |q| - 53) := by
        rw [← zpow_natCast, ← two_zpow_add]
        congr 1; push_cast; ring
      rw [e]
      calc |(m : ℚ)| * 2 ^ k ≤ |(m : ℚ)| * 2 ^ (Int.log 2 |q| - 53) :=
            mul_le_mul_of_nonneg_left hk (abs_nonneg _)
        _ < 2 ^ 53 * 2 ^ (Int.log 2 |q| - 53) :=
            mul_lt_mul_of_pos_right hm' (two_zpow_pos _)
    have hp : (2 : ℚ) ^ Int.log 2 |q| = (2 : ℚ) ^ (52 : ℤ) * 2 ^ ulpExponent q := by
      rw [hE, ← two_zpow_add]
      congr 1; ring
    have hc : (((2 : ℤ) ^ 52 : ℤ) : ℚ) = (2 : ℚ) ^ (52 : ℤ) := by norm_num
    have hdl := abs_lt.mp hd
    generalize Int.log 2 |q| = L at hlo hhi hE hd hp hdl
    rcases lt_or_gt_of_ne hq with hneg | hpos
    · have h := roundNearestEven_le_multiple q (-(2 ^ 52))
      have e : ((-(2 ^ 52) : ℤ) : ℚ) * 2 ^ ulpExponent q = -(2 : ℚ) ^ L := by
        rw [hp, Int.cast_neg, hc]; ring
      rw [e] at h
      have habs : |q| = -q := abs_of_neg hneg
      have h3 : |-(2 : ℚ) ^ L - q| = -(2 : ℚ) ^ L - q :=
        abs_of_nonneg (by linarith)
      have h4 := le_abs_self ((m : ℚ) * 2 ^ k - q)
      linarith
    · have h := roundNearestEven_le_multiple q (2 ^ 52)
      rw [hc, ← hp] at h
      have habs : |q| = q := abs_of_pos hpos
      have h3 : |(2 : ℚ) ^ L - q| = q - (2 : ℚ) ^ L := by
        rw [abs_sub_comm]; exact abs_of_nonneg (by linarith)
      have h4 := neg_le_abs ((m : ℚ) * 2 ^ k - q)
      linarith

/-- Round-to-nearest: no binary64 value is closer to `q` than `roundNearestEven q`. -/
theorem roundNearestEven_nearest (q d : ℚ) (hd : isDouble d) :
    |roundNearestEven q - q| ≤ |d - q| := by
  obtain ⟨m, k, hm, hk1, _, rfl⟩ := hd
  exact roundNearestEven_nearest_mantissa q m k hm hk1

/-- A binary64 value rounds to itself. -/
theorem roundNearestEven_of_isDouble {q : ℚ} (h : isDouble q) : roundNearestEven q = q := by
  have h1 := roundNearestEven_nearest q q h
  rw [sub_self, abs_zero] at h1
  have h2 := abs_nonneg (roundNearestEven q - q)
  have h3 : |roundNearestEven q - q| = 0 := le_antisymm h1 h2
  exact sub_eq_zero.mp (abs_eq_zero.mp h3)

theorem maxFinite_pos : 0 < maxFinite := by
  unfold maxFinite
  positivity

theorem maxFinite_lt : maxFinite < 2 ^ (1024 : ℤ) := by
  unfold maxFinite
  have e : (2 : ℚ) ^ (1024 : ℤ) = 2 ^ 53 * 2 ^ 971 := by
    rw [zpow_ofNat, show (1024 : ℕ) = 53 + 971 from rfl, pow_add]
  rw [e]
  exact mul_lt_mul_of_pos_right (by norm_num) (by positivity)

theorem abs_le_maxFinite_of_isDouble {q : ℚ} (h : isDouble q) : |q| ≤ maxFinite := by
  obtain ⟨m, e, hm, he1, he2, rfl⟩ := h
  rw [abs_mul, abs_of_pos (two_zpow_pos e)]
  unfold maxFinite
  have hm' : |m| ≤ 2 ^ 53 - 1 := by omega
  have hm2 : |(m : ℚ)| ≤ 2 ^ 53 - 1 := by exact_mod_cast hm'
  have he : (2 : ℚ) ^ e ≤ 2 ^ (971 : ℤ) := zpow_le_zpow_right₀ (by norm_num) he2
  rw [zpow_ofNat] at he
  exact mul_le_mul hm2 he (two_zpow_pos e).le (by norm_num)

theorem roundToDouble_of_isDouble {q : ℚ} (h : isDouble q) :
    roundToDouble q = Double.finite q := by
  unfold roundToDouble
  rw [roundNearestEven_of_isDouble h, if_neg (not_lt.mpr (abs_le_maxFinite_of_isDouble h))]

theorem isDouble_zero : isDouble 0 := ⟨0, 0, by norm_num, by norm_num, by norm_num, by simp⟩

/-- Every integer of magnitude at most `2 ^ 53` is a binary64 value. -/
theorem isDouble_intCast {n : ℤ} (h : |n| ≤ 2 ^ 53) : isDouble (n : ℚ) := by
  rcases lt_or_eq_of_le h with h1 | h1
  · exact ⟨n, 0, h1, by norm_num, by norm_num, by simp⟩
  · rcases abs_eq (by norm_num : (0 : ℤ) ≤ 2 ^ 53) |>.mp h1 with h2 | h2
    · refine ⟨2 ^ 52, 1, by norm_num, by norm_num, by norm_num, ?_⟩
      rw [h2]; norm_num
    · refine ⟨-2 ^ 52, 1, by norm_num, by norm_num, by norm_num, ?_⟩
      rw [h2]; norm_num

theorem roundToDouble_intCast {n : ℤ} (h : |n| ≤ 2 ^ 53) :
    roundToDouble (n : ℚ) = Double.finite n :=
  roundToDouble_of_isDouble (isDouble_intCast h)

/-- Evaluation of the rounding of `q` from its binade and its scaled mantissa. -/
theorem roundNearestEven_eq (q : ℚ) (E m : ℤ) (hE : -1022 ≤ E) (hlo : (2 : ℚ) ^ E ≤ |q|)
    (hhi : |q| < 2 ^ (E + 1)) (hm : |q / 2 ^ (E - 52) - m| < 1 / 2) :
    roundNearestEven q = m * 2 ^ (E - 52) := by
  have hu : ulpExponent q = E - 52 := by
    unfold ulpExponent
    rw [log_eq_of_bounds hlo hhi, max_eq_left hE]
  unfold roundNearestEven
  rw [hu, roundHalfEven_eq_of_abs_lt _ m hm]

theorem roundHalfEven_le {t : ℚ} {B : ℤ} (h : t ≤ B) : roundHalfEven t ≤ B := by
  have h1 := roundHalfEven_nearest t B
  rw [abs_of_nonneg (by linarith : (0 : ℚ) ≤ (B : ℚ) - t)] at h1
  have h2 := le_abs_self ((roundHalfEven t : ℚ) - t)
  have h3 : (roundHalfEven t : ℚ) ≤ B := by linarith
  exact_mod_cast h3

theorem le_roundHalfEven {t : ℚ} {B : ℤ} (h : (B : ℚ) ≤ t) : B ≤ roundHalfEven t := by
  have h1 := roundHalfEven_nearest t B
  rw [abs_sub_comm (B : ℚ) t, abs_of_nonneg (by linarith : (0 : ℚ) ≤ t - (B : ℚ))] at h1
  have h2 := neg_le_abs ((roundHalfEven t : ℚ) - t)
  have h3 : (B : ℚ) ≤ roundHalfEven t := by linarith
  exact_mod_cast h3

/-- The scaled mantissa of `q` is below `2 ^ 53` in magnitude. -/
theorem abs_scaled_lt (q : ℚ) : |q / 2 ^ ulpExponent q| < 2 ^ 53 := by
  rw [abs_div, abs_of_pos (two_zpow_pos _), div_lt_iff₀ (two_zpow_pos _)]
  by_cases hq : q = 0
  · subst hq; simp only [abs_zero]; exact mul_pos (by norm_num) (two_zpow_pos _)
  obtain ⟨_, hhi⟩ := two_zpow_log_le hq
  have hle : Int.log 2 |q| + 1 ≤ 53 + ulpExponent q := by
    unfold ulpExponent
    have := le_max_left (Int.log 2 |q|) (-1022)
    omega
  have h1 : (2 : ℚ) ^ (Int.log 2 |q| + 1) ≤ 2 ^ (53 + ulpExponent q) :=
    zpow_le_zpow_right₀ (by norm_num) hle
  have h2 : (2 : ℚ) ^ (53 + ulpExponent q) = 2 ^ 53 * 2 ^ ulpExponent q := by
    rw [two_zpow_add, zpow_ofNat]
  linarith

/-- The scaled mantissa of a normal `q` is at least `2 ^ 52` in magnitude. -/
theorem le_abs_scaled {q : ℚ} (hq : q ≠ 0) (hn : -1022 ≤ Int.log 2 |q|) :
    2 ^ 52 ≤ |q / 2 ^ ulpExponent q| := by
  rw [abs_div, abs_of_pos (two_zpow_pos _), le_div_iff₀ (two_zpow_pos _)]
  obtain ⟨hlo, _⟩ := two_zpow_log_le hq
  have hu : ulpExponent q = Int.log 2 |q| - 52 := by
    unfold ulpExponent; rw [max_eq_left hn]
  have h2 : (2 : ℚ) ^ Int.log 2 |q| = 2 ^ 52 * 2 ^ ulpExponent q := by
    rw [hu, ← zpow_ofNat, ← two_zpow_add]; congr 1; ring
  linarith

/-- A rounded value within the finite range is a binary64 value. -/
theorem isDouble_roundNearestEven (q : ℚ) (h : |roundNearestEven q| ≤ maxFinite) :
    isDouble (roundNearestEven q) := by
  by_cases hq : q = 0
  · subst hq; rw [roundNearestEven_zero]; exact isDouble_zero
  have hge := ulpExponent_ge q
  have ht := abs_lt.mp (abs_scaled_lt q)
  have hm1 : roundHalfEven (q / 2 ^ ulpExponent q) ≤ 2 ^ 53 :=
    roundHalfEven_le (by push_cast; linarith [ht.2])
  have hm2 : -(2 ^ 53) ≤ roundHalfEven (q / 2 ^ ulpExponent q) :=
    le_roundHalfEven (by push_cast; linarith [ht.1])
  have hlt := lt_of_le_of_lt h maxFinite_lt
  unfold roundNearestEven at h hlt ⊢
  rw [abs_mul, abs_of_pos (two_zpow_pos _)] at hlt
  set m := roundHalfEven (q / 2 ^ ulpExponent q) with hm
  set e := ulpExponent q with he
  have hmabs : |m| ≤ 2 ^ 53 := abs_le.mpr ⟨hm2, hm1⟩
  rcases lt_or_eq_of_le hmabs with hlt53 | heq53
  · -- the mantissa fits: the exponent cannot exceed 971
    refine ⟨m, e, hlt53, hge, ?_, rfl⟩
    by_contra hbig
    have hbig' : 972 ≤ e := by omega
    have hn : -1022 ≤ Int.log 2 |q| := by
      by_contra hc
      have : e = -1022 - 52 := by
        rw [he]; unfold ulpExponent; rw [max_eq_right (by omega)]
      omega
    have h52 := le_abs_scaled hq hn
    rw [← he] at h52
    have hm52 : (2 : ℚ) ^ 52 ≤ |(m : ℚ)| := by
      rcases le_abs.mp h52 with hp | hp
      · have : (2 ^ 52 : ℤ) ≤ m := le_roundHalfEven (by push_cast; exact hp)
        have h' : ((2 ^ 52 : ℤ) : ℚ) ≤ m := by exact_mod_cast this
        push_cast at h'
        exact le_trans h' (le_abs_self _)
      · have : m ≤ (-(2 ^ 52) : ℤ) := roundHalfEven_le (by push_cast; linarith)
        have h' : (m : ℚ) ≤ ((-(2 ^ 52) : ℤ) : ℚ) := by exact_mod_cast this
        push_cast at h'
        have := neg_le_abs (m : ℚ)
        linarith
    have h972 : (2 : ℚ) ^ (972 : ℤ) ≤ 2 ^ e := zpow_le_zpow_right₀ (by norm_num) hbig'
    have e1024 : (2 : ℚ) ^ (1024 : ℤ) = 2 ^ 52 * 2 ^ (972 : ℤ) := by
      rw [← zpow_ofNat, ← two_zpow_add]; rfl
    have : (2 : ℚ) ^ 52 * 2 ^ (972 : ℤ) ≤ |(m : ℚ)| * 2 ^ e :=
      mul_le_mul hm52 h972 (two_zpow_pos _).le (abs_nonneg _)
    linarith
  · -- the mantissa was rounded up to `2 ^ 53`: one exponent higher
    have hmq : |(m : ℚ)| = 2 ^ 53 := by exact_mod_cast heq53
    rw [hmq] at hlt
    have hlt' : (2 : ℚ) ^ (53 + e) < 2 ^ (1024 : ℤ) := by
      rw [two_zpow_add, zpow_ofNat]; exact hlt
    have he971 : 53 + e < 1024 := (zpow_lt_zpow_iff_right₀ (by norm_num)).mp hlt'
    have hsplit : (2 : ℚ) ^ (e + 1) = 2 ^ e * 2 := by
      rw [two_zpow_add, zpow_one]
    rcases abs_eq (by norm_num : (0 : ℤ) ≤ 2 ^ 53) |>.mp heq53 with h2 | h2
    · refine ⟨2 ^ 52, e + 1, by norm_num, by omega, by omega, ?_⟩
      rw [h2, hsplit]; push_cast; ring
    · refine ⟨-2 ^ 52, e + 1, by norm_num, by omega, by omega, ?_⟩
      rw [h2, hsplit]; push_cast; ring

theorem roundNearestEven_le_of_le {x d : ℚ} (hd : isDouble d) (h : x ≤ d) :
    roundNearestEven x ≤ d := by
  have h1 := roundNearestEven_nearest x d hd
  rw [abs_of_nonneg (by linarith : (0 : ℚ) ≤ d - x)] at h1
  have h2 := le_abs_self (roundNearestEven x - x)
  linarith

theorem le_roundNearestEven_of_le {x d : ℚ} (hd : isDouble d) (h : d ≤ x) :
    d ≤ roundNearestEven x := by
  have h1 := roundNearestEven_nearest x d hd
  rw [abs_sub_comm d x, abs_of_nonneg (by linarith : (0 : ℚ) ≤ x - d)] at h1
  have h2 := neg_le_abs (roundNearestEven x - x)
  linarith

theorem isDouble_minSubnormal : isDouble (2 ^ (-1074 : ℤ)) :=
  ⟨1, -1074, by norm_num, by norm_num, by norm_num, by simp⟩

/-- Evaluation of the rounding of a subnormal `q` from its scaled mantissa. -/
theorem roundNearestEven_eq_subnormal (q : ℚ) (m : ℤ) (hq : q ≠ 0)
    (hhi : |q| < 2 ^ (-1022 : ℤ)) (hm : |q / 2 ^ (-1074 : ℤ) - m| < 1 / 2) :
    roundNearestEven q = m * 2 ^ (-1074 : ℤ) := by
  have h0 : 0 < |q| := abs_pos.mpr hq
  have hlog : Int.log 2 |q| < -1022 :=
    (Int.lt_zpow_iff_log_lt (b := 2) (by norm_num) h0).mp (by exact_mod_cast hhi)
  have hu : ulpExponent q = -1074 := by
    unfold ulpExponent
    rw [max_eq_right (by omega)]
    norm_num
  unfold roundNearestEven
  rw [hu, roundHalfEven_eq_of_abs_lt _ m hm]

theorem ofInt_eq {n : Int} (h : |n| ≤ 2 ^ 53) : Double.ofInt n = Double.finite n :=
  roundToDouble_intCast h

theorem initial_radius : initialGlobals.radius = Double.finite 15000 := by
  unfold initialGlobals
  exact ofInt_eq (n := 15000) (by norm_num)

theorem cmdParse_radius_of_none (g : Globals) (v : CommandLineValues) (h : v.radius = none) :
    (cmdParse g v).radius = g.radius := by
  simp [cmdParse, h]

theorem default_radius : (cmdParse initialGlobals noOptions).radius = Double.finite 15000 :=
  (cmdParse_radius_of_none initialGlobals noOptions rfl).trans initial_radius

/-- The quotient of a positive binary64 value by a positive integer below `2 ^ 53`. -/
theorem div_ofInt_spec {radius : ℚ} {n : Int} (hd : isDouble radius) (hpos : 0 < radius)
    (hn1 : 1 ≤ n) (hn2 : n ≤ 2 ^ 53) :
    Double.div (Double.finite radius) (Double.ofInt n)
        = Double.finite (roundNearestEven (radius / n)) ∧
      isDouble (roundNearestEven (radius / n)) ∧
      0 ≤ roundNearestEven (radius / n) ∧ roundNearestEven (radius / n) ≤ radius ∧
      (2 ^ (-1074 : ℤ) ≤ radius / n → 0 < roundNearestEven (radius / n)) := by
  have hnq : (1 : ℚ) ≤ n := by exact_mod_cast hn1
  have hn0 : (n : ℚ) ≠ 0 := by linarith
  have hx0 : 0 ≤ radius / n := div_nonneg hpos.le (by linarith)
  have hx1 : radius / n ≤ radius := div_le_self hpos.le hnq
  have h0 := le_roundNearestEven_of_le isDouble_zero hx0
  have h1 := roundNearestEven_le_of_le hd hx1
  have hmax : |roundNearestEven (radius / n)| ≤ maxFinite := by
    rw [abs_of_nonneg h0]
    have := abs_le_maxFinite_of_isDouble hd
    rw [abs_of_pos hpos] at this
    linarith
  refine ⟨?_, isDouble_roundNearestEven _ hmax, h0, h1, ?_⟩
  · rw [ofInt_eq (abs_le.mpr ⟨by omega, hn2⟩)]
    simp only [Double.div, if_neg hn0]
    unfold roundToDouble
    rw [if_neg (not_lt.mpr hmax)]
  · intro hmin
    have := le_roundNearestEven_of_le isDouble_minSubnormal hmin
    exact lt_of_lt_of_le (two_zpow_pos _) this

theorem le_maxFinite_of_abs_le {x : ℚ} (h : |x| ≤ 2 ^ 53) : |x| ≤ maxFinite := by
  have h1 : isDouble (2 ^ 53 : ℚ) := by
    have := isDouble_intCast (n := 2 ^ 53) (by norm_num)
    simpa using this
  have h2 := abs_le_maxFinite_of_isDouble h1
  rw [abs_of_pos (by norm_num)] at h2
  linarith

theorem roundToDouble_eq_finite {q g : ℚ} (h : roundNearestEven q = g) (hg : |g| ≤ 2 ^ 53) :
    roundToDouble q = Double.finite g := by
  unfold roundToDouble
  rw [h, if_neg (not_lt.mpr (le_maxFinite_of_abs_le hg))]

theorem isDouble_15000 : isDouble 15000 := by
  have := isDouble_intCast (n := 15000) (by norm_num)
  simpa using this

/-! ## The claims -/

/-- C7. For every number of gateway rings `r ≥ 1` given on the command line for
which `3 * r * r - 3 * r + 1` does not overflow, `nGateways` after the setup, and
the number of gateway nodes created, is `3 * r * r - 3 * r + 1`: it is computed
from the parsed `gatewayRings`, it equals one central gateway plus `6 * k`
gateways for every ring `k = 1 .. r - 1`, it is odd and at least 1; and it is 37
for the default `gatewayRings = 4`. -/
theorem nGateways_centered_hexagonal (v : CommandLineValues) (r : Int)
    (hv : v.gatewayRings = some r) (hr : 1 ≤ r) (hno : nGatewaysNoOverflow r) :
    (mainSetup v).globals.nGateways = 3 * r * r - 3 * r + 1 ∧
    (mainSetup v).globals.nGateways
      = computeNGateways (cmdParse initialGlobals v).gatewayRings ∧
    (gatewaysCreated (mainSetup v) : Int) = 3 * r * r - 3 * r + 1 ∧
    3 * r * r - 3 * r + 1 = 1 + ∑ k in Finset.Icc (1 : ℤ) (r - 1), 6 * k ∧
    (3 * r * r - 3 * r + 1) % 2 = 1 ∧
    1 ≤ 3 * r * r - 3 * r + 1 ∧
    (mainSetup noOptions).globals.nGateways = 37 ∧
    (r = 4 → (mainSetup v).globals.nGateways = 37) := by
  have hn : (mainSetup v).globals.nGateways = 3 * r * r - 3 * r + 1 := by
    simp only [mainSetup, cmdParse, hv, Option.getD_some]
    exact computeNGateways_eq hno
  have hsum : 3 * r * r - 3 * r + 1 = 1 + ∑ k in Finset.Icc (1 : ℤ) (r - 1), 6 * k := by
    obtain ⟨n, rfl⟩ : ∃ n : ℕ, r = (n : ℤ) + 1 := ⟨(r - 1).toNat, by omega⟩
    rw [add_sub_cancel_right, centered_hexagonal_sum]
  have hpos : 1 ≤ 3 * r * r - 3 * r + 1 := by nlinarith
  have hodd : (3 * r * r - 3 * r + 1) % 2 = 1 := by
    have e : 3 * r * r - 3 * r + 1 = 3 * (r * (r - 1)) + 1 := by ring
    have h2 : r * (r - 1) % 2 = 0 := by
      rcases Int.emod_two_eq_zero_or_one r with h | h
      · rw [Int.mul_emod, h]; simp
      · have h' : (r - 1) % 2 = 0 := by omega
        rw [Int.mul_emod, h']; simp
    rw [e]; omega
  refine ⟨hn, rfl, ?_, hsum, hodd, hpos, by decide, ?_⟩
  · have hlt : 3 * r * r - 3 * r + 1 < 2 ^ 31 := hno.2.2.2.2
    unfold gatewaysCreated
    rw [hn]
    omega
  · intro h4
    rw [hn, h4]; norm_num

/-- C7, at `gatewayRings=2`. -/
theorem nGateways_centered_hexagonal_witness :
    (2 : Int) ≥ 1 ∧ nGatewaysNoOverflow 2 ∧
    (mainSetup { noOptions with gatewayRings := some 2 }).globals.nGateways = 7 ∧
    (gatewaysCreated (mainSetup { noOptions with gatewayRings := some 2 }) : Int) = 7 :=
  have h := nGateways_centered_hexagonal { noOptions with gatewayRings := some 2 } 2 rfl
    (by decide) (by decide)
  ⟨by decide, by decide, h.1, h.2.2.1⟩

/-- C9 (amended). For every `int` value of `gatewayRings`, wrapped or not, the
divisor `(gatewayRings - 1) * 2 + 1` is odd and so not zero. For
`gatewayRings = r ≥ 1` without overflow it is `2 * r - 1 ≥ 1`, and for a positive
finite `radius` the quotient `gatewayRadius` is the binary64 value nearest to
`radius / (2 * r - 1)`: no binary64 value is closer, `0 ≤ gatewayRadius ≤ radius`,
and `0 < gatewayRadius` unless the exact quotient is below the smallest
positive binary64 value. -/
theorem gatewayRadius_divisor_odd (v : CommandLineValues) (radius : ℚ) (r : Int)
    (hrad : (cmdParse initialGlobals v).radius = Double.finite radius)
    (hrings : (cmdParse initialGlobals v).gatewayRings = r)
    (hd : isDouble radius) (hpos : 0 < radius) (hr : 1 ≤ r) (hno : divisorNoOverflow r) :
    (∀ x : Int, gatewayRadiusDivisor x % 2 = 1 ∧ gatewayRadiusDivisor x ≠ 0) ∧
    (gatewayRadiusDivisor r = 2 * r - 1 ∧ 1 ≤ 2 * r - 1) ∧
    ∃ g : ℚ, (mainSetup v).gatewayRadius = Double.finite g ∧ isDouble g ∧
      (∀ d : ℚ, isDouble d → |g - radius / (2 * r - 1)| ≤ |d - radius / (2 * r - 1)|) ∧
      0 ≤ g ∧ g ≤ radius ∧
      (2 ^ (-1074 : ℤ) ≤ radius / (2 * r - 1) → 0 < g) := by
  refine ⟨fun x => ?_, ⟨gatewayRadiusDivisor_eq hno, by omega⟩, ?_⟩
  · have h := gatewayRadiusDivisor_odd x
    exact ⟨h, by omega⟩
  · have hlt : (r - 1) * 2 + 1 < 2 ^ 31 := hno.2.2.2
    have hcast : (((2 * r - 1 : Int)) : ℚ) = 2 * (r : ℚ) - 1 := by push_cast; ring
    obtain ⟨h1, h2, h3, h4, h5⟩ :=
      div_ofInt_spec (n := 2 * r - 1) hd hpos (by omega) (by omega)
    rw [hcast] at h1 h2 h3 h4 h5
    refine ⟨roundNearestEven (radius / (2 * r - 1)), ?_, h2,
      fun d hdd => roundNearestEven_nearest _ d hdd, h3, h4, h5⟩
    simp only [mainSetup, hrad, hrings, gatewayRadiusDivisor_eq hno]
    exact h1

/-- C9 (amended), at the default settings `radius = 15000`, `gatewayRings = 4`. -/
theorem gatewayRadius_divisor_odd_witness :
    isDouble 15000 ∧ (0 : ℚ) < 15000 ∧ (1 : Int) ≤ 4 ∧ divisorNoOverflow 4 ∧
    (gatewayRadiusDivisor 4 = 2 * 4 - 1 ∧ (1 : Int) ≤ 2 * 4 - 1) ∧
    ∃ g : ℚ, (mainSetup noOptions).gatewayRadius = Double.finite g ∧ isDouble g ∧
      (∀ d : ℚ, isDouble d → |g - 15000 / (2 * ((4 : Int) : ℚ) - 1)|
        ≤ |d - 15000 / (2 * ((4 : Int) : ℚ) - 1)|) ∧
      0 ≤ g ∧ g ≤ 15000 ∧
      (2 ^ (-1074 : ℤ) ≤ 15000 / (2 * (((4 : Int) : ℚ)) - 1) → 0 < g) :=
  have h := gatewayRadius_divisor_odd noOptions 15000 4 default_radius rfl isDouble_15000
    (by norm_num) (by decide) (by decide)
  ⟨isDouble_15000, by norm_num, by decide, by decide, h.2.1, h.2.2⟩

theorem roundNearestEven_15000_div_7 :
    roundNearestEven (15000 / 7) = 4712192690468571 / 2199023255552 := by
  have h := roundNearestEven_eq (15000 / 7) 11 4712192690468571 (by norm_num)
    (by rw [abs_of_pos (by norm_num)]; norm_num)
    (by rw [abs_of_pos (by norm_num)]; norm_num)
    (by rw [abs_lt]; constructor <;> norm_num)
  rw [h]; norm_num

theorem roundNearestEven_gatewayRadius_mul_7 :
    roundNearestEven (4712192690468571 / 2199023255552 * 7)
      = 8246337208319999 / 549755813888 := by
  have h := roundNearestEven_eq (4712192690468571 / 2199023255552 * 7) 13 8246337208319999
    (by norm_num)
    (by rw [abs_of_pos (by norm_num)]; norm_num)
    (by rw [abs_of_pos (by norm_num)]; norm_num)
    (by rw [abs_lt]; constructor <;> norm_num)
  rw [h]; norm_num

theorem roundNearestEven_minSubnormal_div_3 :
    roundNearestEven (2 ^ (-1074 : ℤ) / 3) = 0 := by
  have hp := two_zpow_pos (-1074)
  have hq : (0 : ℚ) < 2 ^ (-1074 : ℤ) / 3 := by positivity
  have hlt : (2 : ℚ) ^ (-1074 : ℤ) < 2 ^ (-1022 : ℤ) :=
    zpow_lt_zpow_right₀ (by norm_num) (by norm_num)
  have h := roundNearestEven_eq_subnormal (2 ^ (-1074 : ℤ) / 3) 0 hq.ne'
    (by rw [abs_of_pos hq]; linarith)
    (by
      have e : (2 : ℚ) ^ (-1074 : ℤ) / 3 / 2 ^ (-1074 : ℤ) - ((0 : ℤ) : ℚ) = 1 / 3 := by
        field_simp
      rw [e]; rw [abs_of_pos (by norm_num)]; norm_num)
  rw [h]; simp

/-- C9, as stated, fails. With the default `radius = 15000` and
`gatewayRings = 4` the divisor is 7 and `gatewayRadius` is the binary64 value
`4712192690468571 / 2 ^ 41` (2142.8571428571427): its product with 7 is not
15000, neither exactly nor when the product is rounded to binary64
(14999.999999999998). With `radius` the smallest positive binary64 value and
`gatewayRings = 2` the quotient underflows: `gatewayRadius` is 0, not positive. -/
theorem gatewayRadius_times_divisor_ne_radius :
    ((cmdParse initialGlobals noOptions).radius = Double.finite 15000 ∧
      (cmdParse initialGlobals noOptions).gatewayRings = 4 ∧
      gatewayRadiusDivisor 4 = 2 * 4 - 1 ∧
      (mainSetup noOptions).gatewayRadius
        = Double.finite (4712192690468571 / 2199023255552) ∧
      (4712192690468571 / 2199023255552 : ℚ) * (2 * 4 - 1) ≠ 15000 ∧
      Double.mul (mainSetup noOptions).gatewayRadius (Double.ofInt (2 * 4 - 1))
        = Double.finite (8246337208319999 / 549755813888) ∧
      Double.finite (8246337208319999 / 549755813888) ≠ Double.finite 15000) ∧
    (isDouble (2 ^ (-1074 : ℤ)) ∧ (0 : ℚ) < 2 ^ (-1074 : ℤ) ∧
      (mainSetup { noOptions with radius := some (Double.finite (2 ^ (-1074 : ℤ))),
                                  gatewayRings := some 2 }).gatewayRadius
        = Double.finite 0) := by
  have hdiv : (mainSetup noOptions).gatewayRadius
      = Double.finite (4712192690468571 / 2199023255552) := by
    have h7 : gatewayRadiusDivisor (cmdParse initialGlobals noOptions).gatewayRings = 7 := by
      decide
    have hr := default_radius
    simp only [mainSetup, h7, hr]
    have h := (div_ofInt_spec (n := 7) isDouble_15000 (by norm_num) (by norm_num)
      (by norm_num)).1
    rw [h]
    have e : (15000 : ℚ) / ((7 : Int) : ℚ) = 15000 / 7 := by norm_num
    rw [e, roundNearestEven_15000_div_7]
  refine ⟨⟨default_radius, rfl, by decide, hdiv, by norm_num, ?_, ?_⟩,
    isDouble_minSubnormal, two_zpow_pos _, ?_⟩
  · rw [hdiv, ofInt_eq (by norm_num)]
    simp only [Double.mul]
    have e : ((((2 * 4 - 1 : Int)) : ℚ)) = 7 := by norm_num
    rw [e]
    exact roundToDouble_eq_finite roundNearestEven_gatewayRadius_mul_7
      (by rw [abs_of_pos (by norm_num)]; norm_num)
  · intro h
    have := Double.finite.inj h
    norm_num at this
  · have h3 : gatewayRadiusDivisor 2 = 3 := by decide
    simp only [mainSetup, cmdParse, noOptions, Option.getD_some, h3]
    rw [ofInt_eq (by norm_num)]
    have h30 : (((3 : Int)) : ℚ) ≠ 0 := by norm_num
    simp only [Double.div, if_neg h30]
    have e : (2 : ℚ) ^ (-1074 : ℤ) / ((3 : Int) : ℚ) = 2 ^ (-1074 : ℤ) / 3 := by norm_num
    rw [e]
    exact roundToDouble_eq_finite roundNearestEven_minSubnormal_div_3 (by norm_num)

/-! ## Monotonicity of rounding -/

/-- Every rounded value has a 53-bit mantissa and an exponent of at least -1074. -/
theorem roundNearestEven_mantissa (q : ℚ) :
    ∃ m e : ℤ, |m| < 2 ^ 53 ∧ -1074 ≤ e ∧ roundNearestEven q = m * 2 ^ e := by
  have hge := ulpExponent_ge q
  have ht := abs_lt.mp (abs_scaled_lt q)
  have hm1 : roundHalfEven (q / 2 ^ ulpExponent q) ≤ 2 ^ 53 :=
    roundHalfEven_le (by push_cast; linarith [ht.2])
  have hm2 : -(2 ^ 53) ≤ roundHalfEven (q / 2 ^ ulpExponent q) :=
    le_roundHalfEven (by push_cast; linarith [ht.1])
  unfold roundNearestEven
  set m := roundHalfEven (q / 2 ^ ulpExponent q) with hm
  set e := ulpExponent q with he
  have hmabs : |m| ≤ 2 ^ 53 := abs_le.mpr ⟨hm2, hm1⟩
  rcases lt_or_eq_of_le hmabs with hlt53 | heq53
  · exact ⟨m, e, hlt53, hge, rfl⟩
  · have hsplit : (2 : ℚ) ^ (e + 1) = 2 ^ e * 2 := by
      rw [two_zpow_add, zpow_one]
    rcases abs_eq (by norm_num : (0 : ℤ) ≤ 2 ^ 53) |>.mp heq53 with h2 | h2
    · refine ⟨2 ^ 52, e + 1, by norm_num, by omega, ?_⟩
      rw [h2, hsplit]; push_cast; ring
    · refine ⟨-2 ^ 52, e + 1, by norm_num, by omega, ?_⟩
      rw [h2, hsplit]; push_cast; ring

/-- Rounding to nearest is monotone. -/
theorem roundNearestEven_mono {x y : ℚ} (h : x ≤ y) :
    roundNearestEven x ≤ roundNearestEven y := by
  by_contra hc
  push_neg at hc
  obtain ⟨ma, ea, hma, hea, ha⟩ := roundNearestEven_mantissa x
  obtain ⟨mb, eb, hmb, heb, hb⟩ := roundNearestEven_mantissa y
  have h1 := roundNearestEven_nearest_mantissa x mb eb hmb heb
  have h2 := roundNearestEven_nearest_mantissa y ma ea hma hea
  rw [← hb] at h1
  rw [← ha] at h2
  have hxy : x = y := by
    have hx : roundNearestEven x + roundNearestEven y ≤ 2 * x := by
      have h3 := le_abs_self (roundNearestEven x - x)
      rcases abs_cases (roundNearestEven y - x) with ⟨h4, _⟩ | ⟨h4, _⟩
      · rw [h4] at h1; linarith
      · rw [h4] at h1; linarith
    have hy : 2 * y ≤ roundNearestEven x + roundNearestEven y := by
      have h3 := neg_le_abs (roundNearestEven y - y)
      rcases abs_cases (roundNearestEven x - y) with ⟨h4, _⟩ | ⟨h4, _⟩
      · rw [h4] at h2; linarith
      · rw [h4] at h2; linarith
    linarith
  rw [hxy] at hc
  exact lt_irrefl _ hc

theorem roundNearestEven_nonneg {x : ℚ} (h : 0 ≤ x) : 0 ≤ roundNearestEven x := by
  have := roundNearestEven_mono h
  rwa [roundNearestEven_zero] at this

theorem roundNearestEven_nonpos {x : ℚ} (h : x ≤ 0) : roundNearestEven x ≤ 0 := by
  have := roundNearestEven_mono h
  rwa [roundNearestEven_zero] at this

/-- The result of an operation is never a NaN: it compares with both infinities. -/
theorem ge_inf_roundToDouble (q : ℚ) :
    Double.ge (Double.inf false) (roundToDouble q) = true ∧
    Double.ge (roundToDouble q) (Double.inf true) = true := by
  unfold roundToDouble
  split_ifs <;> simp [Double.ge]

/-- The rounding of an exact result to a `double` is monotone for `>=`. -/
theorem ge_roundToDouble {p q : ℚ} (h : p ≤ q) :
    Double.ge (roundToDouble q) (roundToDouble p) = true := by
  have hm := roundNearestEven_mono h
  unfold roundToDouble
  split_ifs with hq hp hp
  · -- both overflow
    by_cases hq0 : q < 0
    · have hp0 : p < 0 := lt_of_le_of_lt h hq0
      simp [Double.ge, hq0, hp0]
    · simp [Double.ge, hq0]
  · -- only the larger overflows: it is positive
    by_cases hq0 : q < 0
    · exfalso
      have hrq := roundNearestEven_nonpos hq0.le
      rw [abs_of_nonpos hrq] at hq
      have hrp : roundNearestEven p ≤ 0 := le_trans hm hrq
      rw [abs_of_nonpos hrp] at hp
      linarith
    · simp [Double.ge, hq0]
  · -- only the smaller overflows: it is negative
    by_cases hp0 : p < 0
    · simp [Double.ge, hp0]
    · exfalso
      have hrp := roundNearestEven_nonneg (not_lt.mp hp0)
      rw [abs_of_nonneg hrp] at hp
      have hrq : 0 ≤ roundNearestEven q := le_trans hrp hm
      rw [abs_of_nonneg hrq] at hq
      linarith
  · simp [Double.ge, hm]

/-- Multiplication by a positive finite `double` is monotone for `>=`. -/
theorem ge_mul_of_pos {c : ℚ} (hc : 0 < c) {a b : Double} (h : Double.ge b a = true) :
    Double.ge (Double.mul (Double.finite c) b) (Double.mul (Double.finite c) a) = true := by
  have hc0 : c ≠ 0 := hc.ne'
  have hcn : ¬ c < 0 := not_lt.mpr hc.le
  cases a with
  | nan => cases b <;> simp [Double.ge] at h
  | finite x =>
    cases b with
    | nan => simp [Double.ge] at h
    | finite y =>
      simp only [Double.ge, decide_eq_true_eq] at h
      simp only [Double.mul]
      exact ge_roundToDouble (mul_le_mul_of_nonneg_left h hc.le)
    | inf t =>
      have ht : t = false := by simpa [Double.ge] using h
      subst ht
      simp only [Double.mul, if_neg hc0, hcn, decide_False, Bool.xor_false]
      exact (ge_inf_roundToDouble _).1
  | inf s =>
    cases b with
    | nan => simp [Double.ge] at h
    | finite y =>
      have hs : s = true := by simpa [Double.ge] using h
      subst hs
      simp only [Double.mul, if_neg hc0, hcn, decide_False, Bool.xor_false,
        Bool.true_xor, Bool.not_false]
      exact (ge_inf_roundToDouble _).2
    | inf t =>
      simp only [Double.mul, if_neg hc0, hcn, decide_False, Bool.false_xor]
      exact h

/-- Addition of a finite `double` is monotone for `>=`. -/
theorem ge_add_finite (r : ℚ) {a b : Double} (h : Double.ge b a = true) :
    Double.ge (Double.add (Double.finite r) b) (Double.add (Double.finite r) a) = true := by
  cases a with
  | nan => cases b <;> simp [Double.ge] at h
  | finite x =>
    cases b with
    | nan => simp [Double.ge] at h
    | finite y =>
      simp only [Double.ge, decide_eq_true_eq] at h
      simp only [Double.add]
      exact ge_roundToDouble (by linarith)
    | inf t =>
      have ht : t = false := by simpa [Double.ge] using h
      subst ht
      simp only [Double.add]
      exact (ge_inf_roundToDouble _).1
  | inf s =>
    cases b with
    | nan => simp [Double.ge] at h
    | finite y =>
      have hs : s = true := by simpa [Double.ge] using h
      subst hs
      simp only [Double.add]
      exact (ge_inf_roundToDouble _).2
    | inf t =>
      simp only [Double.add]
      exact h

/-! ## Lemmas on the export loops -/

theorem exportGatewayList_eq {Pkt : Type} (gl : GatewayList) (st : ExportState Pkt) :
    exportGatewayList gl st =
      { st with PowFile := st.PowFile ++ gl.map (fun k => (k.2.gwAddress, k.2.rxPower)) } := by
  unfold exportGatewayList
  induction gl generalizing st with
  | nil => simp
  | cons k ks ih => simp [List.foldl_cons, ih]

theorem exportPacketList_eq {Pkt : Type} (pl : ReceivedPacketList Pkt) (st : ExportState Pkt) :
    exportPacketList pl st =
      { received := st.received
        PowFile := st.PowFile ++ pl.flatMap (fun j =>
          j.2.gwList.map (fun k => (k.2.gwAddress, k.2.rxPower)))
        NumGwPerPktFile := st.NumGwPerPktFile ++ pl.map (fun j => (j.1, j.2.gwList.length)) } := by
  unfold exportPacketList
  induction pl generalizing st with
  | nil => simp
  | cons j js ih =>
    rw [List.foldl_cons, ih]
    simp [exportGatewayList_eq, List.append_assoc]

theorem exportStatuses_eq {Pkt : Type} (m : EndDeviceStatuses Pkt) (st : ExportState Pkt) :
    exportStatuses m st =
      { received := m.foldl
          (fun r i => Double.add r (Double.ofNat i.2.receivedPacketList.length)) st.received
        PowFile := st.PowFile ++ m.flatMap (fun i => i.2.receivedPacketList.flatMap (fun j =>
          j.2.gwList.map (fun k => (k.2.gwAddress, k.2.rxPower))))
        NumGwPerPktFile := st.NumGwPerPktFile ++ m.flatMap (fun i =>
          i.2.receivedPacketList.map (fun j => (j.1, j.2.gwList.length))) } := by
  unfold exportStatuses
  induction m generalizing st with
  | nil => simp
  | cons i is ih =>
    rw [List.foldl_cons, ih]
    simp [exportPacketList_eq, List.append_assoc]

theorem length_gateway_lines_eq_sum {Pkt : Type} (pl : ReceivedPacketList Pkt) :
    (pl.flatMap (fun j => j.2.gwList.map (fun k => (k.2.gwAddress, k.2.rxPower)))).length
      = ((pl.map (fun j => (j.1, j.2.gwList.length))).map Prod.snd).sum := by
  induction pl with
  | nil => simp
  | cons j js ih =>
    simp only [List.flatMap_cons, List.length_append, List.length_map, List.map_cons,
      List.sum_cons, ih]

theorem length_lines_eq_sum {Pkt : Type} (m : EndDeviceStatuses Pkt) :
    (m.flatMap (fun i => i.2.receivedPacketList.flatMap (fun j =>
        j.2.gwList.map (fun k => (k.2.gwAddress, k.2.rxPower))))).length
      = ((m.flatMap (fun i => i.2.receivedPacketList.map
          (fun j => (j.1, j.2.gwList.length)))).map Prod.snd).sum := by
  induction m with
  | nil => simp
  | cons i is ih =>
    simp only [List.flatMap_cons, List.length_append, List.map_append, List.sum_append, ih,
      length_gateway_lines_eq_sum]

theorem ten_zpow_pos (e : ℤ) : (0 : ℚ) < 10 ^ e := zpow_pos (by norm_num) e

theorem log10_eq_of_bounds {q : ℚ} {E : ℤ} (hlo : (10 : ℚ) ^ E ≤ |q|)
    (hhi : |q| < 10 ^ (E + 1)) : Int.log 10 |q| = E := by
  have h0 : 0 < |q| := lt_of_lt_of_le (ten_zpow_pos E) hlo
  have h1 : E ≤ Int.log 10 |q| :=
    (Int.zpow_le_iff_le_log (b := 10) (by norm_num) h0).mp (by exact_mod_cast hlo)
  have h2 : Int.log 10 |q| < E + 1 :=
    (Int.lt_zpow_iff_log_lt (b := 10) (by norm_num) h0).mp (by exact_mod_cast hhi)
  omega

/-- Evaluation of the rounding of `q` to six digits from its decade and its
scaled digits. -/
theorem roundDecimal_eq (q : ℚ) (E m : ℤ) (hlo : (10 : ℚ) ^ E ≤ |q|)
    (hhi : |q| < 10 ^ (E + 1)) (hm : |q / 10 ^ (E - 5) - m| < 1 / 2) :
    roundDecimal 6 q = m * 10 ^ (E - 5) := by
  unfold roundDecimal
  rw [log10_eq_of_bounds hlo hhi]
  have e : E - (((6 : ℕ) : ℤ) - 1) = E - 5 := by norm_num
  rw [e, roundHalfEven_eq_of_abs_lt _ m hm]

/-- C5. The export loops visit the devices in map order, the records of a device
in list order and the gateway entries of a record in list order: `potenze.dat`
holds one line (gateway address, received power) for every gateway entry,
`gwperpkt.dat` one line for every record, whose count is the size of the gateway
list of the record, and the number of lines of `potenze.dat` is the sum of the
counts in `gwperpkt.dat`. -/
theorem export_lines {Pkt : Type} (m : EndDeviceStatuses Pkt) (nDevices : Int) :
    (mainExport m nDevices).potenze
      = m.flatMap (fun i => i.2.receivedPacketList.flatMap (fun j =>
          j.2.gwList.map (fun k => (k.2.gwAddress, k.2.rxPower)))) ∧
    (mainExport m nDevices).gwperpkt
      = m.flatMap (fun i => i.2.receivedPacketList.map (fun j => (j.1, j.2.gwList.length))) ∧
    (mainExport m nDevices).potenze.length
      = ((mainExport m nDevices).gwperpkt.map Prod.snd).sum := by
  have h1 : (mainExport m nDevices).potenze
      = m.flatMap (fun i => i.2.receivedPacketList.flatMap (fun j =>
          j.2.gwList.map (fun k => (k.2.gwAddress, k.2.rxPower)))) := by
    simp [mainExport, exportStatuses_eq]
  have h2 : (mainExport m nDevices).gwperpkt
      = m.flatMap (fun i => i.2.receivedPacketList.map (fun j => (j.1, j.2.gwList.length))) := by
    simp [mainExport, exportStatuses_eq]
  refine ⟨h1, h2, ?_⟩
  rw [h1, h2]
  exact length_lines_eq_sum m

theorem roundHalfEven_tie_even (f : ℤ) (hf : f % 2 = 0) :
    roundHalfEven ((f : ℚ) + 1 / 2) = f := by
  have hfl : ⌊(f : ℚ) + 1 / 2⌋ = f := by
    rw [Int.floor_eq_iff]; constructor <;> linarith
  unfold roundHalfEven
  rw [hfl]
  have h1 : ¬ ((f : ℚ) + 1 / 2 - f < 1 / 2) := by
    rw [not_lt]; linarith
  have h2 : ¬ ((1 : ℚ) / 2 < (f : ℚ) + 1 / 2 - f) := by
    rw [not_lt]; linarith
  rw [if_neg h1, if_neg h2, if_pos hf]

theorem totalReceived_tooManyRecords : totalReceived tooManyRecords = 9007205000000001 := by
  unfold totalReceived tooManyRecords
  simp only [List.map_cons, List.map_nil, List.sum_cons, List.sum_nil, List.length_replicate,
    Nat.add_zero]

theorem roundNearestEven_tooMany :
    roundNearestEven 9007205000000001 = 9007205000000000 := by
  have hu : ulpExponent 9007205000000001 = 1 := by
    unfold ulpExponent
    rw [log_eq_of_bounds (E := 53) (by rw [abs_of_pos (by norm_num)]; norm_num)
      (by rw [abs_of_pos (by norm_num)]; norm_num)]
    norm_num
  unfold roundNearestEven
  rw [hu]
  have e : (9007205000000001 : ℚ) / 2 ^ (1 : ℤ) = ((4503602500000000 : ℤ) : ℚ) + 1 / 2 := by
    norm_num
  rw [e, roundHalfEven_tie_even _ (by norm_num)]
  norm_num

theorem stdout_head_single {Pkt : Type} (a : LoraDeviceAddress)
    (l : ReceivedPacketList Pkt) (nDevices : Int) :
    (mainExport [(a, { receivedPacketList := l })] nDevices).stdout.head?
      = some (printDouble (Double.add (Double.ofInt 0) (Double.ofNat l.length))) := by
  simp [mainExport, exportStatuses_eq]

theorem isDouble_tooMany : isDouble 9007205000000000 :=
  ⟨4503602500000000, 1, by norm_num, by norm_num, by norm_num, by norm_num⟩

theorem ofNat_tooMany :
    Double.ofNat 9007205000000001 = Double.finite 9007205000000000 := by
  have e : ((9007205000000001 : ℕ) : ℚ) = 9007205000000001 := by norm_num
  unfold Double.ofNat roundToDouble
  rw [e, roundNearestEven_tooMany,
    if_neg (not_lt.mpr (abs_le_maxFinite_of_isDouble isDouble_tooMany))]

theorem add_zero_tooMany :
    Double.add (Double.finite 0) (Double.finite 9007205000000000)
      = Double.finite 9007205000000000 := by
  simp only [Double.add, zero_add]
  exact roundToDouble_of_isDouble isDouble_tooMany

theorem roundDecimal_tooMany : roundDecimal 6 9007205000000000 = 9007200000000000 := by
  unfold roundDecimal
  rw [log10_eq_of_bounds (E := 15) (by rw [abs_of_pos (by norm_num)]; norm_num)
    (by rw [abs_of_pos (by norm_num)]; norm_num)]
  have e : (9007205000000000 : ℚ) / 10 ^ ((15 : ℤ) - (((6 : ℕ) : ℤ) - 1))
      = ((900720 : ℤ) : ℚ) + 1 / 2 := by norm_num
  rw [e, roundHalfEven_tie_even _ (by norm_num)]
  norm_num

theorem printDouble_tooMany :
    printDouble (Double.finite 9007205000000000) = Printed.number 9007200000000000 := by
  simp only [printDouble, roundDecimal_tooMany]

theorem ofInt_zero : Double.ofInt 0 = Double.finite 0 := by
  rw [ofInt_eq (by norm_num)]; simp

theorem stdout_head_tooMany :
    (mainExport tooManyRecords 1).stdout.head?
      = some (printDouble (Double.add (Double.ofInt 0) (Double.ofNat 9007205000000001))) := by
  unfold tooManyRecords
  rw [stdout_head_single, List.length_replicate]

theorem roundDecimal_total_tooMany :
    roundDecimal 6 9007205000000001 = 9007210000000000 := by
  have h := roundDecimal_eq 9007205000000001 15 900721
    (by rw [abs_of_pos (by norm_num)]; norm_num)
    (by rw [abs_of_pos (by norm_num)]; norm_num)
    (by rw [abs_lt]; constructor <;> norm_num)
  rw [h]; norm_num

/-- Beyond `2 ^ 53` records the `double` accumulation is no longer exact and
the number shown can differ from the rounded total: for 9007205000000001
records `received` is 9007205000000000 and the program shows 9.0072e+15, while
the total rounded to six digits is 9.00721e+15. -/
theorem printed_received_beyond_bound :
    2 ^ 53 < totalReceived tooManyRecords ∧
    (mainExport tooManyRecords 1).stdout.head? = some (Printed.number 9007200000000000) ∧
    roundDecimal 6 (totalReceived tooManyRecords) = 9007210000000000 := by
  refine ⟨by rw [totalReceived_tooManyRecords]; norm_num, ?_, ?_⟩
  · rw [stdout_head_tooMany, ofInt_zero, ofNat_tooMany, add_zero_tooMany, printDouble_tooMany]
  · rw [totalReceived_tooManyRecords]
    have e : ((9007205000000001 : ℕ) : ℚ) = 9007205000000001 := by norm_num
    rw [e, roundDecimal_total_tooMany]

/-! ## Claims on the channel -/

/-- C1, as stated, fails. With `buildingsEnabled = false` (and the attribute
values 3, 1, 46.6777 for a fresh log-distance model) the chain handed to the
channel is not [log-distance, correlated shadowing]: it has a single element
and no correlated shadowing in it. -/
theorem no_shadowing_when_buildings_disabled :
    propagationChain
        (mainChannel false (Double.lit 3) (Double.lit 1) (Double.lit 46.6777))
      ≠ [LossKind.logDistance (Double.lit 3.76) (Double.ofInt 1) (Double.lit 7.7),
         LossKind.correlatedShadowing] ∧
    (propagationChain
        (mainChannel false (Double.lit 3) (Double.lit 1) (Double.lit 46.6777))).length = 1 ∧
    LossKind.correlatedShadowing ∉
      propagationChain
        (mainChannel false (Double.lit 3) (Double.lit 1) (Double.lit 46.6777)) := by
  have h : propagationChain
      (mainChannel false (Double.lit 3) (Double.lit 1) (Double.lit 46.6777))
      = [LossKind.logDistance (Double.lit 3.76) (Double.ofInt 1) (Double.lit 7.7)] := rfl
  rw [h]
  refine ⟨?_, rfl, ?_⟩
  · intro hc
    have := congrArg List.length hc
    simp at this
  · simp

/-- C1 (amended). With `buildingsEnabled = false` the chain handed to the channel
is exactly [log-distance loss with exponent 3.76 and reference loss 7.7 at
distance 1]: the correlated shadowing and the building penetration are both
left out, and the loss of a transmitter/receiver pair is that of the
log-distance contributor alone. -/
theorem chain_without_buildings (e0 d0 l0 : Double) :
    propagationChain (mainChannel false e0 d0 l0)
      = [LossKind.logDistance (Double.lit 3.76) (Double.ofInt 1) (Double.lit 7.7)] ∧
    ∀ (L P : Type) (contribute : LossKind → L → P → P → L) (init : L) (tx rx : P),
      channelLoss contribute (mainChannel false e0 d0 l0) init tx rx
        = contribute (LossKind.logDistance (Double.lit 3.76) (Double.ofInt 1) (Double.lit 7.7))
            init tx rx :=
  ⟨rfl, fun _ _ _ _ _ _ => rfl⟩

/-- C2. No command-line value changes `buildingsEnabled`, which is `true`; the
chain handed to the channel is then exactly [log-distance loss with exponent
3.76 and reference loss 7.7 at distance 1, correlated shadowing, building
penetration], without repetition, and the loss of a transmitter/receiver pair
is the fold of the three contributors, in that order, over the cumulative loss. -/
theorem chain_with_buildings (v : CommandLineValues) (e0 d0 l0 : Double) :
    (mainSetup v).globals.buildingsEnabled = true ∧
    propagationChain (mainChannel (mainSetup v).globals.buildingsEnabled e0 d0 l0)
      = [LossKind.logDistance (Double.lit 3.76) (Double.ofInt 1) (Double.lit 7.7),
         LossKind.correlatedShadowing, LossKind.buildingPenetration] ∧
    (propagationChain (mainChannel (mainSetup v).globals.buildingsEnabled e0 d0 l0)).Nodup ∧
    ∀ (L P : Type) (contribute : LossKind → L → P → P → L) (init : L) (tx rx : P),
      channelLoss contribute (mainChannel (mainSetup v).globals.buildingsEnabled e0 d0 l0)
          init tx rx
        = (propagationChain (mainChannel (mainSetup v).globals.buildingsEnabled e0 d0 l0)).foldl
            (fun acc k => contribute k acc tx rx) init ∧
      channelLoss contribute (mainChannel (mainSetup v).globals.buildingsEnabled e0 d0 l0)
          init tx rx
        = contribute LossKind.buildingPenetration
            (contribute LossKind.correlatedShadowing
              (contribute
                (LossKind.logDistance (Double.lit 3.76) (Double.ofInt 1) (Double.lit 7.7))
                init tx rx) tx rx) tx rx := by
  have hb : (mainSetup v).globals.buildingsEnabled = true := rfl
  rw [hb]
  have hc : propagationChain (mainChannel true e0 d0 l0)
      = [LossKind.logDistance (Double.lit 3.76) (Double.ofInt 1) (Double.lit 7.7),
         LossKind.correlatedShadowing, LossKind.buildingPenetration] := rfl
  rw [hc]
  refine ⟨rfl, rfl, ?_, fun _ _ _ _ _ _ => ⟨rfl, rfl⟩⟩
  simp

/-! ## Claim on the order of the calls -/

/-- C6. In every run of `main` the spreading factors are set up exactly once, and
every call that comes before it is none of: the installation of the traffic
applications, their start, the run of the simulator, `PrintEndDevices` (which
reads the data rates written to `nodeLocations.dat`); the installation of the
applications and the run of the simulator both follow, and so does
`PrintEndDevices` when it is called. Hence at every point of the run at which
the applications are installed, the simulator has run or the end devices have
been printed, the spreading factors have been set up. -/
theorem spreading_factors_set_once_before_traffic (printEDs : Bool) :
    (mainCalls printEDs).count Call.setSpreadingFactorsUp = 1 ∧
    (∃ before after : List Call,
      mainCalls printEDs = before ++ Call.setSpreadingFactorsUp :: after ∧
      Call.installApplications ∉ before ∧ Call.startApplications ∉ before ∧
      Call.simulatorRun ∉ before ∧ Call.printEndDevices ∉ before ∧
      Call.installApplications ∈ after ∧ Call.simulatorRun ∈ after ∧
      (printEDs = true → Call.printEndDevices ∈ after) ∧
      (Call.printEndDevices ∈ mainCalls printEDs ↔ printEDs = true)) ∧
    ∀ reached : List Call, reached <+: mainCalls printEDs →
      (Call.installApplications ∈ reached ∨ Call.simulatorRun ∈ reached ∨
        Call.printEndDevices ∈ reached) →
      Call.setSpreadingFactorsUp ∈ reached := by
  refine ⟨by cases printEDs <;> decide, ?_, ?_⟩
  · refine ⟨[.cmdParse, .logComponentEnable, .createChannel,
       .createEndDevices, .installEndDeviceMobility, .installEndDeviceNetDevices,
       .createGateways, .installGatewayMobility, .installGatewayNetDevices,
       .createBuildings, .installBuildings, .printBuildings],
      [.createNetworkServer, .installNetworkServer, .installForwarder,
       .installApplications, .startApplications, .stopApplications] ++
      (if printEDs then [.printEndDevices] else []) ++
      [.simulatorStop, .simulatorRun, .simulatorDestroy,
       .printSF, .exportStatuses, .printReceived], ?_⟩
    cases printEDs <;> decide
  · suffices h : ∀ reached ∈ (mainCalls printEDs).inits,
        (Call.installApplications ∈ reached ∨ Call.simulatorRun ∈ reached ∨
          Call.printEndDevices ∈ reached) →
        Call.setSpreadingFactorsUp ∈ reached from
      fun reached hp => h reached ((List.mem_inits _ _).mpr hp)
    cases printEDs <;> decide

/-- C6, at the point of a run with `printEDs = true` where the applications
have just been installed. -/
theorem spreading_factors_set_once_before_traffic_witness :
    ([.cmdParse, .logComponentEnable, .createChannel,
       .createEndDevices, .installEndDeviceMobility, .installEndDeviceNetDevices,
       .createGateways, .installGatewayMobility, .installGatewayNetDevices,
       .createBuildings, .installBuildings, .printBuildings,
       .setSpreadingFactorsUp,
       .createNetworkServer, .installNetworkServer, .installForwarder,
       .installApplications] : List Call) <+: mainCalls true ∧
    Call.setSpreadingFactorsUp ∈
      ([.cmdParse, .logComponentEnable, .createChannel,
       .createEndDevices, .installEndDeviceMobility, .installEndDeviceNetDevices,
       .createGateways, .installGatewayMobility, .installGatewayNetDevices,
       .createBuildings, .installBuildings, .printBuildings,
       .setSpreadingFactorsUp,
       .createNetworkServer, .installNetworkServer, .installForwarder,
       .installApplications] : List Call) :=
  ⟨by decide,
    (spreading_factors_set_once_before_traffic true).2.2 _ (by decide)
      (Or.inl (by decide))⟩

/-! ## Claim on the gateway lists -/

theorem mergeReception_nodup (gl : GatewayList) (r : ReceptionRecord)
    (h : (gl.map (fun k => k.2.gwAddress)).Nodup) :
    ((mergeReception gl r).map (fun k => k.2.gwAddress)).Nodup := by
  unfold mergeReception
  split_ifs with hany
  · exact h
  · rw [List.map_append, List.nodup_append]
    refine ⟨h, by simp, ?_⟩
    intro a ha hb
    simp only [List.map_cons, List.map_nil, List.mem_singleton, toGatewayEntry] at hb
    subst hb
    apply hany
    rw [List.any_eq_true]
    obtain ⟨k, hk, hka⟩ := List.mem_map.mp ha
    exact ⟨k, hk, by simp [hka]⟩

theorem foldl_mergeReception_nodup (rs : List ReceptionRecord) (gl : GatewayList)
    (h : (gl.map (fun k => k.2.gwAddress)).Nodup) :
    ((rs.foldl mergeReception gl).map (fun k => k.2.gwAddress)).Nodup := by
  induction rs generalizing gl with
  | nil => exact h
  | cons r rs ih => exact ih _ (mergeReception_nodup gl r h)

theorem forwarded_process_addresses (m : LinkModel) (e : UplinkEvent)
    (gateways : List Address) :
    ((forwarded (process m e gateways)).map toGatewayEntry).map (fun k => k.2.gwAddress)
      = gateways.filter (fun g => (evaluate m e g).captured) := by
  unfold forwarded process
  induction gateways with
  | nil => rfl
  | cons g gs ih =>
    simp only [List.map_cons, List.filter_cons]
    by_cases hc : (evaluate m e g).captured = true
    · simp only [hc, if_true, List.map_cons, ih]
      rfl
    · have hf : (evaluate m e g).captured = false := by simpa using hc
      simp only [hf, Bool.false_eq_true, if_false, ih]

/-- The receptions forwarded for one event come from distinct gateways. -/
theorem forwarded_process_nodup (m : LinkModel) (e : UplinkEvent) (gateways : List Address)
    (hg : gateways.Nodup) :
    (((forwarded (process m e gateways)).map toGatewayEntry).map
      (fun k => k.2.gwAddress)).Nodup := by
  rw [forwarded_process_addresses]
  exact hg.filter _

theorem ingestPacket_nodup (e : UplinkEvent) (captured : List ReceptionRecord)
    (hc : ((captured.map toGatewayEntry).map (fun k => k.2.gwAddress)).Nodup)
    (pl : ReceivedPacketList UplinkEvent)
    (h : ∀ j ∈ pl, (j.2.gwList.map (fun k => k.2.gwAddress)).Nodup) :
    ∀ j ∈ ingestPacket e captured pl, (j.2.gwList.map (fun k => k.2.gwAddress)).Nodup := by
  induction pl with
  | nil =>
    intro j hj
    simp only [ingestPacket, List.mem_singleton] at hj
    subst hj
    exact hc
  | cons p ps ih =>
    obtain ⟨pk, info⟩ := p
    intro j hj
    unfold ingestPacket at hj
    split_ifs at hj with hpe
    · rcases List.mem_cons.mp hj with hj | hj
      · subst hj
        exact foldl_mergeReception_nodup captured info.gwList
          (h (pk, info) (List.mem_cons_self _ _))
      · exact h j (List.mem_cons_of_mem _ hj)
    · rcases List.mem_cons.mp hj with hj | hj
      · subst hj
        exact h (pk, info) (List.mem_cons_self _ _)
      · exact ih (fun j hj => h j (List.mem_cons_of_mem _ hj)) j hj

theorem ingestStatuses_distinct (e : UplinkEvent) (captured : List ReceptionRecord)
    (hc : ((captured.map toGatewayEntry).map (fun k => k.2.gwAddress)).Nodup)
    (m : EndDeviceStatuses UplinkEvent) (h : distinctGateways m) :
    distinctGateways (ingestStatuses e captured m) := by
  have hnew : ∀ j ∈ ingestPacket e captured [],
      (j.2.gwList.map (fun k => k.2.gwAddress)).Nodup :=
    ingestPacket_nodup e captured hc [] (fun j hj => absurd hj (List.not_mem_nil j))
  induction m with
  | nil =>
    intro i hi
    simp only [ingestStatuses, List.mem_singleton] at hi
    subst hi
    exact hnew
  | cons d ds ih =>
    obtain ⟨a, st⟩ := d
    have hd : ∀ j ∈ st.receivedPacketList, (j.2.gwList.map (fun k => k.2.gwAddress)).Nodup :=
      h (a, st) (List.mem_cons_self _ _)
    have hds : distinctGateways ds := fun i hi => h i (List.mem_cons_of_mem _ hi)
    intro i hi
    unfold ingestStatuses at hi
    split_ifs at hi with h1 h2
    · rcases List.mem_cons.mp hi with hi | hi
      · subst hi
        exact ingestPacket_nodup e captured hc st.receivedPacketList hd
      · exact hds i hi
    · rcases List.mem_cons.mp hi with hi | hi
      · subst hi
        exact hnew
      · exact h i hi
    · rcases List.mem_cons.mp hi with hi | hi
      · subst hi
        exact hd
      · exact ih hds i hi

theorem ingest_distinct (ns : NetworkStatus) (e : UplinkEvent) (captured : List ReceptionRecord)
    (hc : ((captured.map toGatewayEntry).map (fun k => k.2.gwAddress)).Nodup)
    (h : distinctGateways ns.endDeviceStatuses) :
    distinctGateways (ingest ns e captured).endDeviceStatuses := by
  unfold ingest
  split_ifs
  · exact h
  · exact ingestStatuses_distinct e captured hc _ h

theorem simulate_distinct (gateways : List Address) (hg : gateways.Nodup)
    (events : List (LinkModel × UplinkEvent)) :
    distinctGateways (simulate gateways events).endDeviceStatuses := by
  unfold simulate
  suffices h : ∀ ns : NetworkStatus, distinctGateways ns.endDeviceStatuses →
      distinctGateways (events.foldl
        (fun ns me => ingest ns me.2 (forwarded (process me.1 me.2 gateways)))
        ns).endDeviceStatuses by
    exact h _ (fun i hi => absurd hi (List.not_mem_nil i))
  induction events with
  | nil => intro ns h; exact h
  | cons me rest ih =>
    intro ns h
    exact ih _ (ingest_distinct ns me.2 _ (forwarded_process_nodup me.1 me.2 gateways hg) h)

theorem writtenGatewayAddresses_eq (info : ReceivedPacketInfo) :
    writtenGatewayAddresses info = info.gwList.map (fun k => k.2.gwAddress) := by
  unfold writtenGatewayAddresses
  rw [exportGatewayList_eq]
  simp [List.map_map, Function.comp_def]

/-- C4. After any sequence of uplink events received over gateways with
distinct addresses, every received-packet record of every end device in the
network status has pairwise distinct gateway addresses in its gateway list,
and so has the list of `gwAddress` values the export loop writes to
`potenze.dat` for that record. -/
theorem gateway_addresses_distinct (gateways : List Address)
    (events : List (LinkModel × UplinkEvent)) (hg : gateways.Nodup) :
    ∀ i ∈ (simulate gateways events).endDeviceStatuses, ∀ j ∈ i.2.receivedPacketList,
      (j.2.gwList.map (fun k => k.2.gwAddress)).Nodup ∧
      (writtenGatewayAddresses j.2).Nodup := by
  intro i hi j hj
  have h := simulate_distinct gateways hg events i hi j hj
  exact ⟨h, by rw [writtenGatewayAddresses_eq]; exact h⟩

theorem evaluate_example (gw : Nat) (h : gw ≤ 3) :
    evaluate exampleLink exampleEvent gw
      = { event := exampleEvent, gateway := gw,
          rxPower := Double.finite (-86 - 10 * (gw : ℚ)),
          captured := decide (gw ≤ 2) } := by
  have hgw : ((gw : Int) : ℚ) = (gw : ℚ) := by norm_cast
  have h1 : Double.ofInt (100 + 10 * (gw : Int)) = Double.finite (100 + 10 * (gw : ℚ)) := by
    rw [ofInt_eq (by rw [abs_of_nonneg (by positivity)]; omega)]
    push_cast; rfl
  have h2 : Double.ofInt 14 = Double.finite 14 := by
    rw [ofInt_eq (by norm_num)]; norm_num
  have h3 : Double.ofInt (-110) = Double.finite (-110) := by
    rw [ofInt_eq (by norm_num)]; norm_num
  have h4 : roundToDouble (14 + -(100 + 10 * (gw : ℚ))) = Double.finite (-86 - 10 * (gw : ℚ)) := by
    have h5 := roundToDouble_intCast (n := -86 - 10 * (gw : Int))
      (by rw [abs_le]; constructor <;> omega)
    push_cast at h5
    have e : (14 : ℚ) + -(100 + 10 * (gw : ℚ)) = -86 - 10 * (gw : ℚ) := by ring
    rw [e]; exact h5
  simp only [evaluate, exampleLink, exampleEvent, h1, h2, h3, Double.sub, Double.neg,
    Double.add, h4, Double.ge, Bool.and_true]
  congr 1
  have hq : ((-110 : ℚ) ≤ -86 - 10 * (gw : ℚ)) ↔ (gw : ℕ) ≤ (2 : ℕ) := by
    interval_cases gw <;> norm_num
  simp only [hq]

/-- The example run: the event is captured by gateways 1 and 2 and not by
gateway 3; ingested twice, it leaves one record with the two gateways. -/
theorem simulate_example :
    (simulate [1, 2, 3]
        [(exampleLink, exampleEvent), (exampleLink, exampleEvent)]).endDeviceStatuses
      = [exampleStatus] := by
  have e1 := evaluate_example 1 (by norm_num)
  have e2 := evaluate_example 2 (by norm_num)
  have e3 := evaluate_example 3 (by norm_num)
  have hf : forwarded (process exampleLink exampleEvent [1, 2, 3])
      = [{ event := exampleEvent, gateway := 1, rxPower := Double.finite (-96),
           captured := true },
         { event := exampleEvent, gateway := 2, rxPower := Double.finite (-106),
           captured := true }] := by
    simp only [process, List.map_cons, List.map_nil, e1, e2, e3, forwarded]
    norm_num [List.filter]
  simp only [simulate, List.foldl_cons, List.foldl_nil, hf, ingest, List.isEmpty_cons,
    Bool.false_eq_true, if_false, ingestStatuses, ingestPacket, List.map_cons, List.map_nil,
    toGatewayEntry, if_true, mergeReception, List.any_cons, List.any_nil]
  have hd : exampleEvent.deviceId = 7 := rfl
  have hs : exampleEvent.spreadingFactor = 7 := rfl
  simp [hd, hs, exampleStatus, exampleRecord]

theorem exampleStatus_mem :
    exampleStatus ∈ (simulate [1, 2, 3]
        [(exampleLink, exampleEvent), (exampleLink, exampleEvent)]).endDeviceStatuses := by
  rw [simulate_example]
  exact List.mem_singleton.mpr rfl

theorem exampleRecord_mem : exampleRecord ∈ exampleStatus.2.receivedPacketList :=
  List.mem_singleton.mpr rfl

/-- C4, for three gateways and an uplink event ingested twice: the record it
leaves has distinct gateway addresses. -/
theorem gateway_addresses_distinct_witness :
    ([1, 2, 3] : List Address).Nodup ∧
    exampleStatus ∈ (simulate [1, 2, 3]
        [(exampleLink, exampleEvent), (exampleLink, exampleEvent)]).endDeviceStatuses ∧
    exampleRecord ∈ exampleStatus.2.receivedPacketList ∧
    (exampleRecord.2.gwList.map (fun k => k.2.gwAddress)).Nodup ∧
    (writtenGatewayAddresses exampleRecord.2).Nodup :=
  ⟨by decide, exampleStatus_mem, exampleRecord_mem,
    gateway_addresses_distinct [1, 2, 3] _ (by decide) exampleStatus exampleStatus_mem
      exampleRecord exampleRecord_mem⟩

/-! ## Claim on the distance-based loss -/

theorem isDouble_natCast {n : ℕ} (h : n ≤ 2 ^ 53) : isDouble (n : ℚ) := by
  have h1 : |(n : ℤ)| ≤ 2 ^ 53 := by
    rw [abs_of_nonneg (by positivity)]; exact_mod_cast h
  have := isDouble_intCast h1
  simpa using this

/-- An exact result between two positive integers below `2 ^ 53` is rounded to a
finite `double` between them. -/
theorem roundToDouble_between (q : ℚ) (lo hi : ℕ) (hhi : hi ≤ 2 ^ 53) (h1 : (lo : ℚ) ≤ q)
    (h2 : q ≤ hi) :
    ∃ g : ℚ, roundToDouble q = Double.finite g ∧ (lo : ℚ) ≤ g ∧ g ≤ hi := by
  have hlo0 : (0 : ℚ) ≤ lo := by positivity
  have hlohi : (lo : ℚ) ≤ hi := le_trans h1 h2
  have hlo' : lo ≤ 2 ^ 53 := by
    have : lo ≤ hi := by exact_mod_cast hlohi
    omega
  have ha := le_roundNearestEven_of_le (isDouble_natCast hlo') h1
  have hb := roundNearestEven_le_of_le (isDouble_natCast hhi) h2
  refine ⟨roundNearestEven q, roundToDouble_eq_finite rfl ?_, ha, hb⟩
  rw [abs_of_nonneg (le_trans hlo0 ha)]
  have : (hi : ℚ) ≤ 2 ^ 53 := by exact_mod_cast hhi
  linarith

/-- The integer part of the logarithm is monotone on the distances. -/
theorem floorLog10_mono (x y : ℚ) (_ : isDouble x) (_ : isDouble y) (h0 : 0 ≤ x)
    (h : x ≤ y) :
    Double.ge (floorLog10 (Double.finite y)) (floorLog10 (Double.finite x)) = true := by
  have hy0 : 0 ≤ y := le_trans h0 h
  have hx1 : ¬ x < 0 := not_lt.mpr h0
  have hy1 : ¬ y < 0 := not_lt.mpr hy0
  rcases eq_or_lt_of_le h0 with hx | hx
  · subst hx
    rcases eq_or_lt_of_le hy0 with hy | hy
    · subst hy
      simp [floorLog10, Double.ge]
    · simp [floorLog10, Double.ge, hy1, hy.ne']
  · have hy : 0 < y := lt_of_lt_of_le hx h
    simp only [floorLog10, if_neg hx1, if_neg hy1, if_neg hx.ne', if_neg hy.ne', Double.ge,
      decide_eq_true_eq]
    exact_mod_cast Int.log_mono_right hx h

/-- C3. The loss of the log-distance model as the program configures it
(exponent 3.76, reference loss 7.7 at distance 1) does not decrease with the
distance. In `double` arithmetic, for every implementation of `log10` that is
monotone on the values from 0 on and all distances `0 <= d1 <= d2`, the loss
computed at `d2` is `>=` the loss computed at `d1`; in exact arithmetic with the
real logarithm the same holds for `0 < d1 <= d2`. -/
theorem logDistance_loss_monotone (log10 : Double → Double)
    (hlog : ∀ x y : ℚ, isDouble x → isDouble y → 0 ≤ x → x ≤ y →
      Double.ge (log10 (Double.finite y)) (log10 (Double.finite x)) = true)
    (d1 d2 : ℚ) (hd1 : isDouble d1) (hd2 : isDouble d2) (h0 : 0 ≤ d1) (h12 : d1 ≤ d2) :
    (∀ (b : Bool) (e0 r0 l0 : Double),
      (propagationChain (mainChannel b e0 r0 l0)).head?
        = some (LossKind.logDistance (Double.lit 3.76) (Double.ofInt 1) (Double.lit 7.7))) ∧
    Double.ge
      (logDistanceLoss log10 (Double.lit 3.76) (Double.ofInt 1) (Double.lit 7.7)
        (Double.finite d2))
      (logDistanceLoss log10 (Double.lit 3.76) (Double.ofInt 1) (Double.lit 7.7)
        (Double.finite d1)) = true ∧
    ∀ x y : ℝ, 0 < x → x ≤ y →
      logDistanceLossExact (Real.logb 10) 3.76 1 7.7 x
        ≤ logDistanceLossExact (Real.logb 10) 3.76 1 7.7 y := by
  refine ⟨fun b e0 r0 l0 => by cases b <;> rfl, ?_, ?_⟩
  · -- the constants are finite and the factor of the logarithm is positive
    obtain ⟨e, he, he1, _⟩ := roundToDouble_between 3.76 1 4
      (by norm_num) (by norm_num) (by norm_num)
    obtain ⟨r, hr, _, _⟩ := roundToDouble_between 7.7 1 8
      (by norm_num) (by norm_num) (by norm_num)
    obtain ⟨c, hc, hc1, _⟩ := roundToDouble_between (10 * e) 10 40
      (by norm_num) (by push_cast at he1 ⊢; linarith) (by push_cast at *; linarith)
    have h10 : Double.ofInt 10 = Double.finite 10 := by
      rw [ofInt_eq (by norm_num)]; norm_num
    have h1 : Double.ofInt 1 = Double.finite 1 := by
      rw [ofInt_eq (by norm_num)]; norm_num
    have hdiv : ∀ d : ℚ, isDouble d →
        Double.div (Double.finite d) (Double.finite 1) = Double.finite d := by
      intro d hd
      simp only [Double.div, one_ne_zero, if_false, div_one]
      exact roundToDouble_of_isDouble hd
    have hcpos : 0 < c := by push_cast at hc1; linarith
    simp only [logDistanceLoss, Double.lit, he, hr, h10, h1, hdiv d1 hd1, hdiv d2 hd2]
    have hmul : Double.mul (Double.finite 10) (Double.finite e) = Double.finite c := by
      simp only [Double.mul]; exact hc
    rw [hmul]
    exact ge_add_finite r (ge_mul_of_pos hcpos (hlog d1 d2 hd1 hd2 h0 h12))
  · intro x y hx hxy
    unfold logDistanceLossExact
    have hlog := Real.logb_le_logb_of_le (b := 10) (by norm_num) (by simpa using hx)
      (show x / 1 ≤ y / 1 by simpa using hxy)
    have : (0 : ℝ) ≤ 10 * 3.76 := by norm_num
    nlinarith [mul_le_mul_of_nonneg_left hlog this]

/-- C3, for the distances 100 and 15000 and the implementation of `log10` that
returns the integer part. -/
theorem logDistance_loss_monotone_witness :
    isDouble 100 ∧ isDouble 15000 ∧ (0 : ℚ) ≤ 100 ∧ (100 : ℚ) ≤ 15000 ∧
    Double.ge
      (logDistanceLoss floorLog10 (Double.lit 3.76) (Double.ofInt 1) (Double.lit 7.7)
        (Double.finite 15000))
      (logDistanceLoss floorLog10 (Double.lit 3.76) (Double.ofInt 1) (Double.lit 7.7)
        (Double.finite 100)) = true :=
  have h100 : isDouble 100 := by
    have := isDouble_natCast (n := 100) (by norm_num)
    simpa using this
  ⟨h100, isDouble_15000, by norm_num, by norm_num,
    (logDistance_loss_monotone floorLog10 floorLog10_mono 100 15000 h100 isDouble_15000
      (by norm_num) (by norm_num)).2.1⟩

end Lorawan
